import Mathlib

/-!
Verification of the binary node codec of the zksync-era Merkle tree
(`core/lib/merkle_tree/src/storage/serialization.rs`).

Bytes are modelled as `Fin 256`; byte buffers as `List Byte`. Encoders,
which in the source append to a `&mut Vec<u8>`, are modelled as functions
returning the list of bytes they append; sequential appends become list
concatenation. Decoders, which consume a shrinking `&[u8]` cursor, take a
`List Byte` and (where the source advances the caller's cursor) return the
remaining bytes.

The node data types (`LeafNode`, `ChildRef`, `InternalNode`, `Root`,
`Manifest`, `TreeTags`) and the error type live in the repository's
`types.rs` / `errors.rs`, which are not part of the provided sources; they
are modelled from the spec (§3 data model, §4.8 error taxonomy). The
`leb128` crate and the std primitives (`u32::from_le_bytes`,
`U256::from_big_endian`, `str::parse`, `str::from_utf8`) are modelled from
their documented semantics.
-/

set_option maxRecDepth 4000

namespace MerkleSer

instance {ε α : Type} [DecidableEq ε] [DecidableEq α] : DecidableEq (Except ε α) :=
  fun x y =>
    match x, y with
    | .ok a, .ok b => decidable_of_iff (a = b) (by simp)
    | .error a, .error b => decidable_of_iff (a = b) (by simp)
    | .ok _, .error _ => .isFalse (by simp)
    | .error _, .ok _ => .isFalse (by simp)

abbrev Byte := Fin 256

/-! ### LEB128 (the `leb128` crate, unsigned, `u64` destination) -/

/-- Error cases of `leb128::read::unsigned` on a byte-slice reader:
reading past the end of input (`IoError` on a slice) or a value that does
not fit in the 64-bit destination (`Overflow`). -/
inductive Leb128Error
  | truncated
  | overflow
deriving DecidableEq, Repr

/-- Fuel-driven recursion for `leb128Write` (the fuel keeps the
recursion structural; `leb128Write` supplies enough fuel, so the
fuel-exhausted base case is unreachable — it agrees with the small case
since `n % 128 = n` there). -/
def leb128WriteAux : Nat → Nat → List Byte
  | 0, n => [⟨n % 128, by omega⟩]
  | fuel + 1, n =>
    if n < 128 then [⟨n % 128, by omega⟩]
    else ⟨n % 128 + 128, by omega⟩ :: leb128WriteAux fuel (n / 128)

/-- `leb128::write::unsigned`: 7 data bits per byte, low bits first,
continuation bit `0x80` on every byte but the last. -/
def leb128Write (n : Nat) : List Byte :=
  leb128WriteAux n n

/-- The crate's overflow path: after detecting an overflow at shift 63 it
keeps consuming continuation bytes, then reports `Overflow`; running out
of input while doing so is a read error. -/
def leb128SkipOverflow : Byte → List Byte → Except Leb128Error (Nat × List Byte)
  | b, rest =>
    if 128 ≤ b.val then
      match rest with
      | [] => .error .truncated
      | b2 :: rest2 => leb128SkipOverflow b2 rest2
    else .error .overflow

/-- Main loop of `leb128::read::unsigned`: accumulates
`result |= low_bits << shift`; at `shift == 63` only bytes `0x00`/`0x01`
are accepted (the `u64` destination would overflow otherwise). -/
def leb128ReadAux : List Byte → Nat → Nat → Except Leb128Error (Nat × List Byte)
  | [], _, _ => .error .truncated
  | b :: rest, shift, acc =>
    if shift = 63 ∧ b.val ≠ 0 ∧ b.val ≠ 1 then
      leb128SkipOverflow b rest
    else
      let acc2 := acc ||| ((b.val % 128) <<< shift)
      if b.val < 128 then .ok (acc2, rest)
      else leb128ReadAux rest (shift + 7) acc2

/-- `leb128::read::unsigned` from a byte-slice cursor; on success returns
the value and the remaining bytes. -/
def leb128Read (bytes : List Byte) : Except Leb128Error (Nat × List Byte) :=
  leb128ReadAux bytes 0 0

/-! ### Fixed-width big-endian / little-endian integers -/

/-- `U256::to_big_endian` restricted to `w` bytes: most significant byte
first, zero-padded on the left. -/
def beBytes : Nat → Nat → List Byte
  | 0, _ => []
  | w + 1, v => beBytes w (v / 256) ++ [⟨v % 256, by omega⟩]

/-- `U256::from_big_endian` on a byte slice. -/
def bytesToNatBE (bytes : List Byte) : Nat :=
  bytes.foldl (fun acc b => acc * 256 + b.val) 0

/-- `u32::to_le_bytes` restricted to `w` bytes: least significant first. -/
def leBytes : Nat → Nat → List Byte
  | 0, _ => []
  | w + 1, v => ⟨v % 256, by omega⟩ :: leBytes w (v / 256)

/-- `u32::from_le_bytes` on a byte list. -/
def bytesToNatLE (bytes : List Byte) : Nat :=
  bytes.foldr (fun b acc => b.val + 256 * acc) 0

/-! ### Error taxonomy.
Modelled from the spec: `DeserializeError` / `DeserializeErrorKind` /
`ErrorContext` live in the repository's `errors.rs` (not under the
provided sources); §4.8 describes an error as a pair of a kind and an
optional context, which is exactly what this file's code produces
(`kind.into()` attaches no context, `kind.with_context(ctx)` attaches
one). -/

/-- `std::num::ParseIntError` kinds reachable from `str::parse::<usize>`. -/
inductive IntParseError
  | empty
  | invalidDigit
  | posOverflow
deriving DecidableEq, Repr

/-- The boxed error stored in `MalformedTag`: an integer parse error for
`depth`, a boolean parse error for `is_recovering`. -/
inductive TagValueError
  | int (e : IntParseError)
  | bool
deriving DecidableEq, Repr

inductive ErrorContext
  | LeafIndex
  | ChildRefHash
  | Version
  | ChildrenMask
  | LeafCount
  | TagKey
  | TagValue
deriving DecidableEq, Repr

inductive DeserializeErrorKind
  | UnexpectedEof
  | Leb128 (e : Leb128Error)
  | Utf8
  | InvalidChildKind
  | EmptyInternalNode
  | MalformedTag (name : String) (err : TagValueError)
  | MissingTag (name : String)
  | UnknownTag (key : List Byte)
deriving DecidableEq, Repr

structure DeserializeError where
  kind : DeserializeErrorKind
  context : Option ErrorContext
deriving DecidableEq, Repr

/-- `DeserializeErrorKind::into::<DeserializeError>()`. -/
def DeserializeErrorKind.intoError (k : DeserializeErrorKind) : DeserializeError :=
  ⟨k, none⟩

/-- `DeserializeErrorKind::with_context`. -/
def DeserializeErrorKind.withContext (k : DeserializeErrorKind) (c : ErrorContext) :
    DeserializeError :=
  ⟨k, some c⟩

/-! ### Constants -/

def KEY_SIZE : Nat := 32
def HASH_SIZE : Nat := 32

/-! ### LeafNode -/

/-- Modelled from the spec: `LeafNode` (types.rs) is
`{full_key: Key, value_hash: ValueHash, leaf_index: u64}`; `Key` is a
256-bit big-endian integer, `ValueHash` a 32-byte array. -/
structure LeafNode where
  full_key : Nat
  value_hash : List Byte
  leaf_index : Nat
deriving DecidableEq, Repr

/-- Well-formedness of an in-memory `LeafNode`: the machine-width bounds
of its Rust fields. -/
def LeafNode.valid (l : LeafNode) : Prop :=
  l.full_key < 2 ^ (8 * KEY_SIZE) ∧ l.value_hash.length = HASH_SIZE ∧
    l.leaf_index < 2 ^ 64

instance (l : LeafNode) : Decidable l.valid := by
  unfold LeafNode.valid; infer_instance

/-- `LeafNode::deserialize`. -/
def LeafNode.deserialize (bytes : List Byte) : Except DeserializeError LeafNode :=
  if bytes.length < KEY_SIZE + HASH_SIZE then
    .error DeserializeErrorKind.UnexpectedEof.intoError
  else
    let full_key := bytesToNatBE (bytes.take KEY_SIZE)
    let value_hash := (bytes.drop KEY_SIZE).take HASH_SIZE
    match leb128Read (bytes.drop (KEY_SIZE + HASH_SIZE)) with
    | .error e => .error ((DeserializeErrorKind.Leb128 e).withContext .LeafIndex)
    | .ok (leaf_index, _) => .ok ⟨full_key, value_hash, leaf_index⟩

/-- `LeafNode::serialize` (the bytes appended to the buffer). -/
def LeafNode.serialize (l : LeafNode) : List Byte :=
  beBytes KEY_SIZE l.full_key ++ l.value_hash ++ leb128Write l.leaf_index

/-! ### ChildRef -/

/-- Modelled from the spec: `ChildRef` (types.rs) is
`{hash: ValueHash, version: u64, is_leaf: bool}`. -/
structure ChildRef where
  hash : List Byte
  version : Nat
  is_leaf : Bool
deriving DecidableEq, Repr

def ChildRef.valid (r : ChildRef) : Prop :=
  r.hash.length = HASH_SIZE ∧ r.version < 2 ^ 64

instance (r : ChildRef) : Decidable r.valid := by
  unfold ChildRef.valid; infer_instance

/-- `ChildRef::deserialize`: consumes from the cursor and returns the
remaining bytes. -/
def ChildRef.deserialize (buffer : List Byte) (isLeaf : Bool) :
    Except DeserializeError (ChildRef × List Byte) :=
  if buffer.length < HASH_SIZE then
    .error (DeserializeErrorKind.UnexpectedEof.withContext .ChildRefHash)
  else
    let hash := buffer.take HASH_SIZE
    let rest := buffer.drop HASH_SIZE
    match leb128Read rest with
    | .error e => .error ((DeserializeErrorKind.Leb128 e).withContext .Version)
    | .ok (version, rest2) => .ok (⟨hash, version, isLeaf⟩, rest2)

/-- `ChildRef::serialize`: `is_leaf` is intentionally not written here. -/
def ChildRef.serialize (r : ChildRef) : List Byte :=
  r.hash ++ leb128Write r.version

/-- `ChildRef::kind` as the `u32` value of the `ChildKind` enum
(`Leaf = 2`, `Internal = 1`). -/
def ChildRef.kindVal (r : ChildRef) : Nat :=
  if r.is_leaf then 2 else 1

/-! ### ChildKind -/

inductive ChildKind
  | None
  | Internal
  | Leaf
deriving DecidableEq, Repr

/-- `ChildKind::deserialize` on a two-bit bitmap chunk. -/
def ChildKind.deserialize (bitmapChunk : Nat) : Except DeserializeError ChildKind :=
  match bitmapChunk with
  | 0 => .ok .None
  | 1 => .ok .Internal
  | 2 => .ok .Leaf
  | _ => .error DeserializeErrorKind.InvalidChildKind.intoError

/-! ### InternalNode -/

/-- Modelled from the spec: `InternalNode` (types.rs) is a sparse mapping
from child slot index `∈ [0, 16)` to `ChildRef`, here a total function to
`Option ChildRef`. -/
structure InternalNode where
  children : Fin 16 → Option ChildRef

instance : DecidableEq InternalNode := fun a b =>
  decidable_of_iff (a.children = b.children) (by cases a; cases b; simp)

/-- `InternalNode::CHILD_COUNT`. -/
def InternalNode.CHILD_COUNT : Nat := 16

/-- `InternalNode::with_capacity` builds an empty node (capacity is an
allocation hint only). -/
def InternalNode.withCapacity : InternalNode :=
  ⟨fun _ => none⟩

/-- `InternalNode::insert_child_ref`. -/
def InternalNode.insertChildRef (n : InternalNode) (i : Fin 16) (r : ChildRef) :
    InternalNode :=
  ⟨Function.update n.children i (some r)⟩

/-- `InternalNode::children()`: `(slot, ref)` pairs of occupied slots in
ascending slot order. -/
def InternalNode.childEntries (n : InternalNode) : List (Fin 16 × ChildRef) :=
  (List.finRange 16).filterMap fun i => (n.children i).map fun r => (i, r)

/-- `InternalNode::child_refs()`: refs of occupied slots in ascending
slot order. -/
def InternalNode.childRefs (n : InternalNode) : List ChildRef :=
  n.childEntries.map Prod.snd

def InternalNode.childCount (n : InternalNode) : Nat :=
  n.childEntries.length

def ChildRef.validOpt : Option ChildRef → Prop
  | none => True
  | some r => r.valid

instance : DecidablePred ChildRef.validOpt := fun o =>
  match o with
  | none => .isTrue trivial
  | some r => inferInstanceAs (Decidable r.valid)

def InternalNode.valid (n : InternalNode) : Prop :=
  (∀ i : Fin 16, ChildRef.validOpt (n.children i)) ∧ 1 ≤ n.childCount

instance (n : InternalNode) : Decidable n.valid := by
  unfold InternalNode.valid; infer_instance

/-- The child bitmap computed by `InternalNode::serialize`:
`bitmap |= (kind as u32) << (2 * i)` over occupied slots in ascending
order. -/
def InternalNode.bitmap (n : InternalNode) : Nat :=
  n.childEntries.foldl (fun bm e => bm ||| (e.2.kindVal <<< (2 * e.1.val))) 0

/-- `InternalNode::serialize`: the little-endian bitmap followed by the
child refs in ascending slot order. -/
def InternalNode.serialize (n : InternalNode) : List Byte :=
  leBytes 4 n.bitmap ++ n.childEntries.flatMap fun e => e.2.serialize

/-- The `for i in 0..Self::CHILD_COUNT` loop of `InternalNode::deserialize`:
dispatches on the low two bits of the shifting bitmap (`bitmap & MASK` is
`bm % 4`, `bitmap >>= 2` is `bm / 4`). -/
def internalLoop : List (Fin 16) → Nat → List Byte → InternalNode →
    Except DeserializeError (InternalNode × List Byte)
  | [], _, bytes, this => .ok (this, bytes)
  | i :: slots, bm, bytes, this =>
    match ChildKind.deserialize (bm % 4) with
    | .error e => .error e
    | .ok .None => internalLoop slots (bm / 4) bytes this
    | .ok .Internal =>
      match ChildRef.deserialize bytes false with
      | .error e => .error e
      | .ok (r, bytes2) => internalLoop slots (bm / 4) bytes2 (this.insertChildRef i r)
    | .ok .Leaf =>
      match ChildRef.deserialize bytes true with
      | .error e => .error e
      | .ok (r, bytes2) => internalLoop slots (bm / 4) bytes2 (this.insertChildRef i r)

/-- `InternalNode::deserialize`. -/
def InternalNode.deserialize (bytes : List Byte) : Except DeserializeError InternalNode :=
  if bytes.length < 4 then
    .error (DeserializeErrorKind.UnexpectedEof.withContext .ChildrenMask)
  else
    let bm := bytesToNatLE (bytes.take 4)
    if bm = 0 then .error DeserializeErrorKind.EmptyInternalNode.intoError
    else
      match internalLoop (List.finRange 16) bm (bytes.drop 4) .withCapacity with
      | .error e => .error e
      | .ok (this, _) => .ok this

/-! ### Node and Root -/

inductive Node
  | Internal (node : InternalNode)
  | Leaf (leaf : LeafNode)
deriving DecidableEq

/-- Modelled from the spec: `Root` (types.rs) is
`Empty | Filled{leaf_count: u64, node: Node}`, and `Root::new(leaf_count,
node)` builds the `Filled` variant. -/
inductive Root
  | Empty
  | Filled (leaf_count : Nat) (node : Node)
deriving DecidableEq

def Node.serialize : Node → List Byte
  | .Internal node => node.serialize
  | .Leaf leaf => leaf.serialize

/-- `Root::serialize`. -/
def Root.serialize : Root → List Byte
  | .Empty => leb128Write 0
  | .Filled leaf_count node => leb128Write leaf_count ++ node.serialize

/-- `Root::deserialize`, with the leaf-first fallback in the
`leaf_count == 1` branch. -/
def Root.deserialize (bytes : List Byte) : Except DeserializeError Root :=
  match leb128Read bytes with
  | .error e => .error ((DeserializeErrorKind.Leb128 e).withContext .LeafCount)
  | .ok (leaf_count, rest) =>
    match leaf_count with
    | 0 => .ok .Empty
    | 1 =>
      match LeafNode.deserialize rest with
      | .ok leaf => .ok (.Filled 1 (.Leaf leaf))
      | .error _ =>
        match InternalNode.deserialize rest with
        | .ok node => .ok (.Filled 1 (.Internal node))
        | .error e => .error e
    | _ =>
      match InternalNode.deserialize rest with
      | .ok node => .ok (.Filled leaf_count (.Internal node))
      | .error e => .error e

/-! ### String primitives -/

/-- The UTF-8 bytes of an ASCII string literal. -/
def ascii (s : String) : List Byte :=
  s.data.map fun c => ⟨c.toNat % 256, Nat.mod_lt _ (by omega)⟩

/-- A byte (when present) in the half-open range `[lo, hi)`. -/
def byteIn (lo hi : Nat) : Option Byte → Bool
  | some b => decide (lo ≤ b.val) && decide (b.val < hi)
  | none => false

/-- Fuel-driven recursion for `validUtf8` (the fuel, at least the input
length, keeps the recursion structural; the fuel-exhausted case is
unreachable). -/
def validUtf8Aux : Nat → List Byte → Bool
  | _, [] => true
  | 0, _ :: _ => false
  | fuel + 1, b :: rest =>
    if b.val < 128 then validUtf8Aux fuel rest
    else if b.val < 194 then false
    else if b.val < 224 then
      byteIn 128 192 rest[0]? && validUtf8Aux fuel (rest.drop 1)
    else if b.val < 240 then
      (if b.val = 224 then byteIn 160 192 rest[0]?
       else if b.val = 237 then byteIn 128 160 rest[0]?
       else byteIn 128 192 rest[0]?) &&
        byteIn 128 192 rest[1]? && validUtf8Aux fuel (rest.drop 2)
    else if b.val < 245 then
      (if b.val = 240 then byteIn 144 192 rest[0]?
       else if b.val = 244 then byteIn 128 144 rest[0]?
       else byteIn 128 192 rest[0]?) &&
        byteIn 128 192 rest[1]? && byteIn 128 192 rest[2]? &&
        validUtf8Aux fuel (rest.drop 3)
    else false

/-- `str::from_utf8` validity (WHATWG / RFC 3629 well-formed UTF-8):
1-byte `00..7F`; 2-byte `C2..DF` + cont; 3-byte `E0 A0..BF`, `E1..EC`,
`ED 80..9F`, `EE..EF` + conts; 4-byte `F0 90..BF`, `F1..F3`, `F4 80..8F`
+ conts (cont bytes are `80..BF`); everything else rejected. -/
def validUtf8 (l : List Byte) : Bool :=
  validUtf8Aux l.length l

/-- Digit-accumulation loop of `<usize as FromStr>::from_str` (radix 10):
each byte must be a decimal digit, and `checked_mul`/`checked_add` against
the 64-bit `usize` bound report `PosOverflow`. -/
def parseDigits : List Byte → Nat → Except IntParseError Nat
  | [], acc => .ok acc
  | b :: rest, acc =>
    if 48 ≤ b.val ∧ b.val ≤ 57 then
      let acc2 := acc * 10 + (b.val - 48)
      if acc2 < 2 ^ 64 then parseDigits rest acc2 else .error .posOverflow
    else .error .invalidDigit

/-- `str::parse::<usize>` on a 64-bit target: empty input is `Empty`, a
lone `+` sign is stripped, a sign with no digits is `InvalidDigit`. -/
def parseUsize : List Byte → Except IntParseError Nat
  | [] => .error .empty
  | b :: rest =>
    if b.val = 43 then
      match rest with
      | [] => .error .invalidDigit
      | _ => parseDigits rest 0
    else parseDigits (b :: rest) 0

/-- `str::parse::<bool>`: only the exact literals `true` / `false`. -/
def parseBool (s : List Byte) : Except Unit Bool :=
  if s = ascii "true" then .ok true
  else if s = ascii "false" then .ok false
  else .error ()

/-- Fuel-driven recursion for `natToDecimal` (the fuel-exhausted base
case is unreachable when the fuel is at least the value, and agrees with
the small case since `n % 10 = n` there). -/
def natToDecimalAux : Nat → Nat → List Byte
  | 0, n => [⟨48 + n % 10, by omega⟩]
  | fuel + 1, n =>
    if n < 10 then [⟨48 + n % 10, by omega⟩]
    else natToDecimalAux fuel (n / 10) ++ [⟨48 + n % 10, by omega⟩]

/-- `usize::to_string` (decimal digits, most significant first). -/
def natToDecimal (n : Nat) : List Byte :=
  natToDecimalAux n n

/-! ### TreeTags -/

/-- Modelled from the spec: `TreeTags` (types.rs) is `{architecture:
String, hasher: String, depth: usize, is_recovering: bool, custom:
HashMap<String, String>}`. The custom map is modelled as an association
list; `HashMap`'s iteration order is unspecified in Rust, and the list
order stands in for it (the embedding is deterministic where the source
is not). -/
structure TreeTags where
  architecture : List Byte
  hasher : List Byte
  depth : Nat
  is_recovering : Bool
  custom : List (List Byte × List Byte)
deriving DecidableEq, Repr

/-- `TreeTags::serialize_str`: LEB128 length prefix, then the bytes. -/
def serializeStr (s : List Byte) : List Byte :=
  leb128Write s.length ++ s

/-- `TreeTags::deserialize_str`: LEB128 length, bounds check, UTF-8
check; returns the string and the remaining cursor.
(`usize::try_from(str_len)` cannot fail on a 64-bit target.) -/
def deserializeStr (bytes : List Byte) :
    Except DeserializeErrorKind (List Byte × List Byte) :=
  match leb128Read bytes with
  | .error e => .error (.Leb128 e)
  | .ok (strLen, rest) =>
    if rest.length < strLen then .error .UnexpectedEof
    else if validUtf8 (rest.take strLen) then .ok (rest.take strLen, rest.drop strLen)
    else .error .Utf8

/-- `HashMap::insert` on the association-list model: replace in place if
the key is present, append otherwise. -/
def insertCustom (m : List (List Byte × List Byte)) (k v : List Byte) :
    List (List Byte × List Byte) :=
  if m.any fun e => e.1 = k then m.map fun e => if e.1 = k then (k, v) else e
  else m ++ [(k, v)]

/-- Mutable state of the tag-reading loop in `TreeTags::deserialize`. -/
structure TagAcc where
  architecture : Option (List Byte)
  hasher : Option (List Byte)
  depth : Option Nat
  is_recovering : Bool
  custom : List (List Byte × List Byte)
deriving DecidableEq, Repr

def TagAcc.init : TagAcc := ⟨none, none, none, false, []⟩

/-- The `match key` arm of the tag-reading loop. -/
def processTag (acc : TagAcc) (key value : List Byte) :
    Except DeserializeError TagAcc :=
  if key = ascii "architecture" then .ok { acc with architecture := some value }
  else if key = ascii "hasher" then .ok { acc with hasher := some value }
  else if key = ascii "depth" then
    match parseUsize value with
    | .error e => .error (DeserializeErrorKind.MalformedTag "depth" (.int e)).intoError
    | .ok d => .ok { acc with depth := some d }
  else if key = ascii "is_recovering" then
    match parseBool value with
    | .error _ => .error (DeserializeErrorKind.MalformedTag "is_recovering" .bool).intoError
    | .ok b => .ok { acc with is_recovering := b }
  else if (ascii "custom.").isPrefixOf key then
    .ok { acc with custom := insertCustom acc.custom (key.drop 7) value }
  else .error (DeserializeErrorKind.UnknownTag key).intoError

/-- The `for _ in 0..tag_count` loop of `TreeTags::deserialize`. -/
def tagsLoop : Nat → List Byte → TagAcc → Except DeserializeError (TagAcc × List Byte)
  | 0, bytes, acc => .ok (acc, bytes)
  | n + 1, bytes, acc =>
    match deserializeStr bytes with
    | .error e => .error e.intoError
    | .ok (key, rest1) =>
      match deserializeStr rest1 with
      | .error e => .error e.intoError
      | .ok (value, rest2) =>
        match processTag acc key value with
        | .error e => .error e
        | .ok acc2 => tagsLoop n rest2 acc2

/-- `TreeTags::deserialize`, including the `MissingTag` checks. -/
def TreeTags.deserialize (bytes : List Byte) :
    Except DeserializeError (TreeTags × List Byte) :=
  match leb128Read bytes with
  | .error e => .error (DeserializeErrorKind.Leb128 e).intoError
  | .ok (tagCount, rest) =>
    match tagsLoop tagCount rest .init with
    | .error e => .error e
    | .ok (acc, rest2) =>
      match acc.architecture with
      | none => .error (DeserializeErrorKind.MissingTag "architecture").intoError
      | some a =>
        match acc.hasher with
        | none => .error (DeserializeErrorKind.MissingTag "hasher").intoError
        | some h =>
          match acc.depth with
          | none => .error (DeserializeErrorKind.MissingTag "depth").intoError
          | some d => .ok (⟨a, h, d, acc.is_recovering, acc.custom⟩, rest2)

/-- `TreeTags::serialize`: entry count, then `architecture`, `depth`,
`hasher`, `is_recovering` (only when true), then the custom entries with
the `custom.` key prefix. -/
def TreeTags.serialize (t : TreeTags) : List Byte :=
  leb128Write (3 + (if t.is_recovering then 1 else 0) + t.custom.length)
    ++ serializeStr (ascii "architecture") ++ serializeStr t.architecture
    ++ serializeStr (ascii "depth") ++ serializeStr (natToDecimal t.depth)
    ++ serializeStr (ascii "hasher") ++ serializeStr t.hasher
    ++ (if t.is_recovering then
          serializeStr (ascii "is_recovering") ++ serializeStr (ascii "true")
        else [])
    ++ t.custom.flatMap fun e => serializeStr (ascii "custom." ++ e.1) ++ serializeStr e.2

/-! ### Manifest -/

/-- Modelled from the spec: `Manifest` (types.rs) is
`{version_count: u64, tags: Option<TreeTags>}`. -/
structure Manifest where
  version_count : Nat
  tags : Option TreeTags
deriving DecidableEq, Repr

/-- `Manifest::deserialize`: tags are present iff bytes remain after the
version count. -/
def Manifest.deserialize (bytes : List Byte) : Except DeserializeError Manifest :=
  match leb128Read bytes with
  | .error e => .error (DeserializeErrorKind.Leb128 e).intoError
  | .ok (version_count, rest) =>
    if rest.isEmpty then .ok ⟨version_count, none⟩
    else
      match TreeTags.deserialize rest with
      | .error e => .error e
      | .ok (t, _) => .ok ⟨version_count, some t⟩

/-- `Manifest::serialize`. -/
def Manifest.serialize (m : Manifest) : List Byte :=
  leb128Write m.version_count ++
    (match m.tags with
     | some t => t.serialize
     | none => [])

/-! ### Proof-layer helper definitions -/

/-- Child kind value of an optional child slot (`0b00` for an empty
slot). -/
def kindValOpt : Option ChildRef → Nat
  | none => 0
  | some r => r.kindVal

/-- The child bitmap restricted to a list of slots, lowest slot in the
low two bits: the view of the bitmap consumed by the decoding loop. -/
def InternalNode.bmOf (n : InternalNode) : List (Fin 16) → Nat
  | [] => 0
  | i :: rest => kindValOpt (n.children i) + 4 * n.bmOf rest

/-- The concatenated child-ref bodies of a list of slots. -/
def InternalNode.bodyOf (n : InternalNode) : List (Fin 16) → List Byte
  | [] => []
  | i :: rest =>
    (match n.children i with
     | none => []
     | some r => r.serialize) ++ n.bodyOf rest

/-- Replaying the decoding loop's insertions of `n`'s children over a
list of slots starting from `acc`. -/
def InternalNode.overrideOn (acc n : InternalNode) : List (Fin 16) → InternalNode
  | [] => acc
  | i :: rest =>
    match n.children i with
    | none => InternalNode.overrideOn acc n rest
    | some r => InternalNode.overrideOn (acc.insertChildRef i r) n rest

/-! ### Validity predicates (machine-width bounds and tree invariants) -/

/-- A `Root` that the tree logic can produce: `leaf_count` counts the
leaves of the tree (a `u64`), the node is a leaf only for a one-leaf
tree, and a one-leaf tree persisted as an internal node is a degenerate
single-child node. -/
def Root.valid : Root → Prop
  | .Empty => True
  | .Filled leaf_count (.Leaf l) => leaf_count = 1 ∧ l.valid
  | .Filled leaf_count (.Internal n) =>
      n.valid ∧ 1 ≤ leaf_count ∧ leaf_count < 2 ^ 64 ∧
        (leaf_count = 1 → n.childCount = 1)

instance : (r : Root) → Decidable r.valid
  | .Empty => .isTrue trivial
  | .Filled _ (.Leaf _) => inferInstanceAs (Decidable (_ ∧ _))
  | .Filled _ (.Internal _) => inferInstanceAs (Decidable (_ ∧ _))

/-- A well-formed in-memory string of the tag block: the bytes of a Rust
`String` (valid UTF-8, length a `usize`). -/
def strValid (s : List Byte) : Prop :=
  validUtf8 s = true ∧ s.length < 2 ^ 64

instance : DecidablePred strValid := fun s => by
  unfold strValid; infer_instance

def TreeTags.valid (t : TreeTags) : Prop :=
  strValid t.architecture ∧ strValid t.hasher ∧ t.depth < 2 ^ 64 ∧
    (t.custom.map Prod.fst).Nodup ∧
    (∀ e ∈ t.custom, strValid e.1 ∧ strValid e.2 ∧ e.1.length + 7 < 2 ^ 64) ∧
    3 + (if t.is_recovering then 1 else 0) + t.custom.length < 2 ^ 64

instance (t : TreeTags) : Decidable t.valid := by
  unfold TreeTags.valid; infer_instance

def TreeTags.validOpt : Option TreeTags → Prop
  | none => True
  | some t => t.valid

instance : DecidablePred TreeTags.validOpt := fun o =>
  match o with
  | none => .isTrue trivial
  | some t => inferInstanceAs (Decidable t.valid)

def Manifest.valid (m : Manifest) : Prop :=
  m.version_count < 2 ^ 64 ∧ TreeTags.validOpt m.tags

instance (m : Manifest) : Decidable m.valid := by
  unfold Manifest.valid; infer_instance

/-- A tag-block entry that the tag-reading loop consumes without
erroring: well-formed strings whose key is reserved (with a parseable
value where required) or `custom.`-prefixed. -/
def entryOk (e : List Byte × List Byte) : Prop :=
  strValid e.1 ∧ strValid e.2 ∧
    (e.1 = ascii "architecture" ∨ e.1 = ascii "hasher" ∨
      (e.1 = ascii "depth" ∧ (parseUsize e.2).isOk = true) ∨
      (e.1 = ascii "is_recovering" ∧ (parseBool e.2).isOk = true) ∨
      (ascii "custom.").isPrefixOf e.1 = true)

instance : DecidablePred entryOk := fun e => by
  unfold entryOk; infer_instance

/-! ### Lemmas and theorems -/

theorem leb128WriteAux_adequate : ∀ fuel n, n ≤ fuel →
    leb128WriteAux fuel n = leb128Write n := by
  intro fuel
  induction fuel using Nat.strong_induction_on with
  | _ fuel ih =>
    intro n hn
    unfold leb128Write
    match fuel, n with
    | 0, 0 => rfl
    | fuel + 1, n =>
      by_cases h : n < 128
      · cases n with
        | zero => simp [leb128WriteAux]
        | succ m => simp [leb128WriteAux, h]
      · have hn1 : 1 ≤ n := by omega
        obtain ⟨m, rfl⟩ : ∃ m, n = m + 1 := ⟨n - 1, by omega⟩
        simp only [leb128WriteAux, h, if_false]
        congr 1
        have hd : (m + 1) / 128 ≤ fuel := by
          have := Nat.div_lt_self (show 0 < m + 1 by omega) (show 1 < 128 by omega)
          omega
        have hd2 : (m + 1) / 128 ≤ m := by
          have := Nat.div_lt_self (show 0 < m + 1 by omega) (show 1 < 128 by omega)
          omega
        rw [ih fuel (by omega) _ hd, ih m (by omega) _ hd2]

/-- Recurrence of `leb128Write` for values below 128. -/
theorem leb128Write_small {n : Nat} (h : n < 128) :
    leb128Write n = [⟨n, by omega⟩] := by
  unfold leb128Write
  cases n with
  | zero => rfl
  | succ m =>
    simp only [leb128WriteAux, h, if_true]
    congr 1
    exact Fin.ext (by simpa using Nat.mod_eq_of_lt h)

/-- Recurrence of `leb128Write` for values of 128 and above. -/
theorem leb128Write_large {n : Nat} (h : 128 ≤ n) :
    leb128Write n = ⟨n % 128 + 128, by omega⟩ :: leb128Write (n / 128) := by
  conv_lhs => unfold leb128Write
  obtain ⟨m, rfl⟩ : ∃ m, n = m + 1 := ⟨n - 1, by omega⟩
  simp only [leb128WriteAux, show ¬(m + 1 < 128) by omega, if_false]
  congr 1
  have hd : (m + 1) / 128 ≤ m := by
    have := Nat.div_lt_self (show 0 < m + 1 by omega) (show 1 < 128 by omega)
    omega
  exact leb128WriteAux_adequate m _ hd

theorem natToDecimalAux_adequate : ∀ fuel n, n ≤ fuel →
    natToDecimalAux fuel n = natToDecimal n := by
  intro fuel
  induction fuel using Nat.strong_induction_on with
  | _ fuel ih =>
    intro n hn
    unfold natToDecimal
    match fuel, n with
    | 0, 0 => rfl
    | fuel + 1, n =>
      by_cases h : n < 10
      · cases n with
        | zero => simp [natToDecimalAux]
        | succ m => simp [natToDecimalAux, h]
      · obtain ⟨m, rfl⟩ : ∃ m, n = m + 1 := ⟨n - 1, by omega⟩
        simp only [natToDecimalAux, h, if_false]
        have hd : (m + 1) / 10 ≤ fuel := by
          have := Nat.div_lt_self (show 0 < m + 1 by omega) (show 1 < 10 by omega)
          omega
        have hd2 : (m + 1) / 10 ≤ m := by
          have := Nat.div_lt_self (show 0 < m + 1 by omega) (show 1 < 10 by omega)
          omega
        rw [ih fuel (by omega) _ hd, ih m (by omega) _ hd2]

/-- Recurrence of `natToDecimal` for values below 10. -/
theorem natToDecimal_small {n : Nat} (h : n < 10) :
    natToDecimal n = [⟨48 + n, by omega⟩] := by
  unfold natToDecimal
  cases n with
  | zero => rfl
  | succ m =>
    simp only [natToDecimalAux, h, if_true]
    congr 2
    omega

/-- Recurrence of `natToDecimal` for values of 10 and above. -/
theorem natToDecimal_large {n : Nat} (h : 10 ≤ n) :
    natToDecimal n = natToDecimal (n / 10) ++ [⟨48 + n % 10, by omega⟩] := by
  conv_lhs => unfold natToDecimal
  obtain ⟨m, rfl⟩ : ∃ m, n = m + 1 := ⟨n - 1, by omega⟩
  simp only [natToDecimalAux, show ¬(m + 1 < 10) by omega, if_false]
  congr 1
  have hd : (m + 1) / 10 ≤ m := by
    have := Nat.div_lt_self (show 0 < m + 1 by omega) (show 1 < 10 by omega)
    omega
  exact natToDecimalAux_adequate m _ hd

/-! ### LEB128 round-trip and truncation -/

theorem lor_small_eq_add {a b n : Nat} (h : a < 2 ^ n) :
    a ||| (b <<< n) = a + b * 2 ^ n := by
  rw [Nat.shiftLeft_eq, Nat.or_comm, Nat.mul_comm b (2 ^ n), ← Nat.mul_add_lt_is_or h b]
  omega

theorem leb128ReadAux_write : ∀ n shift acc rest, shift % 7 = 0 → shift ≤ 63 →
    n < 2 ^ (64 - shift) → acc < 2 ^ shift →
    leb128ReadAux (leb128Write n ++ rest) shift acc = .ok (acc + n * 2 ^ shift, rest) := by
  intro n
  induction n using Nat.strong_induction_on with
  | _ n ih =>
    intro shift acc rest h7 h63 hn hacc
    by_cases h : n < 128
    · rw [leb128Write_small h]
      have hcond : ¬(shift = 63 ∧ n ≠ 0 ∧ n ≠ 1) := by
        rintro ⟨rfl, h0, h1⟩
        have : n < 2 := by simpa using hn
        omega
      simp only [List.cons_append, List.nil_append, leb128ReadAux]
      rw [if_neg (by simpa using hcond)]
      have hmod : n % 128 = n := Nat.mod_eq_of_lt h
      simp only [hmod, lor_small_eq_add hacc]
      rw [if_pos h]
      simp
    · rw [leb128Write_large (by omega)]
      have hs63 : shift ≠ 63 := by
        rintro rfl
        have : n < 2 := by simpa using hn
        omega
      have hs56 : shift ≤ 56 := by omega
      simp only [List.cons_append, leb128ReadAux]
      rw [if_neg (by simp [hs63])]
      rw [if_neg (by simp)]
      have hm : n % 128 < 128 := Nat.mod_lt _ (by omega)
      have hval : (n % 128 + 128) % 128 = n % 128 := by omega
      rw [hval, lor_small_eq_add hacc]
      have hrec := ih (n / 128) (Nat.div_lt_self (by omega) (by omega)) (shift + 7)
        (acc + (n % 128) * 2 ^ shift) rest (by omega) (by omega)
        (by
          have h1 : n < 2 ^ (64 - shift) := hn
          have h2 : 2 ^ (64 - shift) = 2 ^ (64 - (shift + 7)) * 128 := by
            rw [show (128 : ℕ) = 2 ^ 7 by norm_num, ← Nat.pow_add]
            congr 1
            omega
          rw [h2] at h1
          exact Nat.div_lt_of_lt_mul (by omega))
        (by
          have h1 : 2 ^ (shift + 7) = 2 ^ shift * 128 := by rw [Nat.pow_add]
          have h2 : n % 128 ≤ 127 := by omega
          have h3 : 0 < 2 ^ shift := Nat.two_pow_pos shift
          nlinarith [hacc])
      rw [show (leb128Write (n / 128)).append rest = leb128Write (n / 128) ++ rest from rfl,
        hrec]
      have hsplit : n % 128 + 128 * (n / 128) = n := Nat.mod_add_div n 128
      have hpow : 2 ^ (shift + 7) = 2 ^ shift * 128 := by rw [Nat.pow_add]
      congr 2
      rw [hpow]
      calc acc + n % 128 * 2 ^ shift + n / 128 * (2 ^ shift * 128)
          = acc + (n % 128 + 128 * (n / 128)) * 2 ^ shift := by ring
        _ = acc + n * 2 ^ shift := by rw [hsplit]

/-- A LEB128 encoding followed by anything reads back to the encoded
value, leaving the trailing bytes untouched. -/
theorem leb128Read_write {n : Nat} (h : n < 2 ^ 64) (rest : List Byte) :
    leb128Read (leb128Write n ++ rest) = .ok (n, rest) := by
  have := leb128ReadAux_write n 0 0 rest (by omega) (by omega) (by simpa using h)
    (by omega)
  simpa using this

theorem leb128SkipOverflow_allCont_head : ∀ rest b, (∀ x ∈ rest, 128 ≤ x.val) →
    128 ≤ b.val → leb128SkipOverflow b rest = .error .truncated := by
  intro rest
  induction rest with
  | nil => intro b _ hb; simp [leb128SkipOverflow, hb]
  | cons b2 rest2 ih =>
    intro b hall hb
    simp only [leb128SkipOverflow, if_pos hb]
    exact ih b2 (fun x hx => hall x (List.mem_cons_of_mem _ hx))
      (hall b2 (List.mem_cons_self _ _))

/-- Reading LEB128 from a run of continuation bytes (every byte has the
high bit set) runs off the end of input. -/
theorem leb128ReadAux_allCont : ∀ l shift acc, (∀ x ∈ l, 128 ≤ x.val) →
    leb128ReadAux l shift acc = .error .truncated := by
  intro l
  induction l with
  | nil => intro _ _ _; rfl
  | cons b rest ih =>
    intro shift acc hall
    have hb : 128 ≤ b.val := hall b (List.mem_cons_self _ _)
    have hrest : ∀ x ∈ rest, 128 ≤ x.val := fun x hx => hall x (List.mem_cons_of_mem _ hx)
    simp only [leb128ReadAux]
    by_cases hc : shift = 63 ∧ b.val ≠ 0 ∧ b.val ≠ 1
    · rw [if_pos (by simpa using hc)]
      exact leb128SkipOverflow_allCont_head rest b hrest hb
    · rw [if_neg (by simpa using hc)]
      rw [if_neg (by omega)]
      exact ih _ _ hrest

/-- Every byte of a strict prefix of a LEB128 encoding is a continuation
byte. -/
theorem leb128Write_take_allCont : ∀ n k, k < (leb128Write n).length →
    ∀ x ∈ (leb128Write n).take k, 128 ≤ x.val := by
  intro n
  induction n using Nat.strong_induction_on with
  | _ n ih =>
    intro k hk
    by_cases h : n < 128
    · rw [leb128Write_small h] at hk ⊢
      simp at hk
      subst hk
      simp
    · rw [leb128Write_large (by omega)] at hk ⊢
      match k with
      | 0 => simp
      | k + 1 =>
        simp only [List.take_succ_cons]
        intro x hx
        rcases List.mem_cons.mp hx with rfl | hx2
        · show 128 ≤ n % 128 + 128
          omega
        · exact ih (n / 128) (Nat.div_lt_self (by omega) (by omega)) k
            (by simpa using hk) x hx2

/-- Reading a strict prefix of a LEB128 encoding fails with a truncation
error. -/
theorem leb128Read_take {n k : Nat} (hk : k < (leb128Write n).length) :
    leb128Read ((leb128Write n).take k) = .error .truncated :=
  leb128ReadAux_allCont _ 0 0 (leb128Write_take_allCont n k hk)

theorem leb128Write_length_pos (n : Nat) : 1 ≤ (leb128Write n).length := by
  by_cases h : n < 128
  · rw [leb128Write_small h]; simp
  · rw [leb128Write_large (by omega)]; simp

theorem leb128Write_ne_nil (n : Nat) : leb128Write n ≠ [] := by
  have := leb128Write_length_pos n
  intro h
  rw [h] at this
  simp at this

/-- A value below `2 ^ (7 * k)` needs at most `k` LEB128 bytes. -/
theorem leb128Write_length_le : ∀ n k, 1 ≤ k → n < 2 ^ (7 * k) →
    (leb128Write n).length ≤ k := by
  intro n
  induction n using Nat.strong_induction_on with
  | _ n ih =>
    intro k hk hn
    by_cases h : n < 128
    · rw [leb128Write_small h]; simpa using hk
    · rw [leb128Write_large (by omega)]
      match k, hk with
      | 1, _ =>
        exfalso
        have : n < 128 := by simpa using hn
        omega
      | k + 2, _ =>
        simp only [List.length_cons]
        have hdiv : n / 128 < 2 ^ (7 * (k + 1)) := by
          apply Nat.div_lt_of_lt_mul
          have : 2 ^ (7 * (k + 1)) * 128 = 2 ^ (7 * (k + 2)) := by
            rw [show (128 : ℕ) = 2 ^ 7 by norm_num, ← Nat.pow_add]
            congr 1
          omega
        have := ih (n / 128) (Nat.div_lt_self (by omega) (by omega)) (k + 1)
          (by omega) hdiv
        omega

/-! ### Big-endian / little-endian round-trips -/

theorem mod_pow_succ_256 (v w : Nat) :
    v % 256 ^ (w + 1) = 256 * (v / 256 % 256 ^ w) + v % 256 := by
  have hM : 256 ^ (w + 1) = 256 * 256 ^ w := by rw [Nat.pow_succ]; ring
  have hsmall : 256 * (v / 256 % 256 ^ w) + v % 256 < 256 ^ (w + 1) := by
    have h1 : v / 256 % 256 ^ w < 256 ^ w := Nat.mod_lt _ (Nat.pos_pow_of_pos _ (by omega))
    have h2 : v % 256 < 256 := Nat.mod_lt _ (by omega)
    omega
  conv_lhs => rw [← Nat.div_add_mod v 256]
  rw [hM, Nat.add_mod, Nat.mul_mod_mul_left,
    Nat.mod_eq_of_lt (show v % 256 < 256 * 256 ^ w by
      have := Nat.mod_lt v (show 0 < 256 by omega)
      have := Nat.pos_pow_of_pos w (show 0 < 256 by omega)
      nlinarith),
    Nat.mod_eq_of_lt (by rw [hM] at hsmall; omega)]

@[simp] theorem beBytes_length : ∀ w v, (beBytes w v).length = w := by
  intro w
  induction w with
  | zero => intro v; rfl
  | succ w ih => intro v; simp [beBytes, ih]

@[simp] theorem leBytes_length : ∀ w v, (leBytes w v).length = w := by
  intro w
  induction w with
  | zero => intro v; rfl
  | succ w ih => intro v; simp [leBytes, ih]

theorem bytesToNatBE_foldl : ∀ w v acc,
    (beBytes w v).foldl (fun acc b => acc * 256 + b.val) acc =
      acc * 256 ^ w + v % 256 ^ w := by
  intro w
  induction w with
  | zero => intro v acc; simp [beBytes, bytesToNatBE, Nat.mod_one]
  | succ w ih =>
    intro v acc
    simp only [beBytes, List.foldl_append, ih]
    simp only [List.foldl_cons, List.foldl_nil]
    rw [mod_pow_succ_256]
    have : 256 ^ (w + 1) = 256 ^ w * 256 := Nat.pow_succ ..
    rw [this]
    ring

/-- Big-endian decoding inverts big-endian encoding (modulo width). -/
theorem bytesToNatBE_beBytes (w v : Nat) :
    bytesToNatBE (beBytes w v) = v % 256 ^ w := by
  have := bytesToNatBE_foldl w v 0
  simpa [bytesToNatBE] using this

/-- Little-endian decoding inverts little-endian encoding (modulo width). -/
theorem bytesToNatLE_leBytes : ∀ w v, bytesToNatLE (leBytes w v) = v % 256 ^ w := by
  intro w
  induction w with
  | zero => intro v; simp [leBytes, bytesToNatLE, Nat.mod_one]
  | succ w ih =>
    intro v
    simp only [leBytes, bytesToNatLE, List.foldr_cons]
    have := ih (v / 256)
    simp only [bytesToNatLE] at this
    rw [this, mod_pow_succ_256]
    ring

/-! ### LeafNode and ChildRef round-trips -/

theorem bytesToNatBE_beBytes_key {v : Nat} (hv : v < 2 ^ (8 * KEY_SIZE)) :
    bytesToNatBE (beBytes KEY_SIZE v) = v := by
  rw [bytesToNatBE_beBytes]
  apply Nat.mod_eq_of_lt
  have h : (256 : ℕ) ^ KEY_SIZE = 2 ^ (8 * KEY_SIZE) := by norm_num [KEY_SIZE]
  omega

/-- `LeafNode::deserialize` inverts `LeafNode::serialize`, tolerating
trailing bytes. -/
theorem leaf_deserialize_append (l : LeafNode) (h : l.valid) (extra : List Byte) :
    LeafNode.deserialize (l.serialize ++ extra) = .ok l := by
  obtain ⟨hk, hh, hi⟩ := h
  have hshape1 : l.serialize ++ extra =
      beBytes KEY_SIZE l.full_key ++
        (l.value_hash ++ (leb128Write l.leaf_index ++ extra)) := by
    simp [LeafNode.serialize, List.append_assoc]
  have hshape2 : l.serialize ++ extra =
      (beBytes KEY_SIZE l.full_key ++ l.value_hash) ++
        (leb128Write l.leaf_index ++ extra) := by
    simp [LeafNode.serialize, List.append_assoc]
  have hA : (l.serialize ++ extra).take KEY_SIZE = beBytes KEY_SIZE l.full_key := by
    rw [hshape1]
    exact List.take_left' (beBytes_length _ _)
  have hB : ((l.serialize ++ extra).drop KEY_SIZE).take HASH_SIZE = l.value_hash := by
    rw [hshape1, List.drop_left' (beBytes_length _ _)]
    exact List.take_left' hh
  have hC : (l.serialize ++ extra).drop (KEY_SIZE + HASH_SIZE) =
      leb128Write l.leaf_index ++ extra := by
    rw [hshape2]
    exact List.drop_left' (by simp [hh])
  have hguard : ¬(l.serialize ++ extra).length < KEY_SIZE + HASH_SIZE := by
    have := leb128Write_length_pos l.leaf_index
    simp only [LeafNode.serialize, List.length_append, beBytes_length, hh]
    simp only [KEY_SIZE, HASH_SIZE]
    omega
  unfold LeafNode.deserialize
  rw [if_neg hguard]
  simp only [hA, hB, hC, leb128Read_write hi, bytesToNatBE_beBytes_key hk]

/-- `ChildRef::deserialize` inverts `ChildRef::serialize`, reading the
`is_leaf` flag from its argument and leaving trailing bytes on the
cursor. -/
theorem childRef_deserialize_append (r : ChildRef) (h : r.valid) (flag : Bool)
    (extra : List Byte) :
    ChildRef.deserialize (r.serialize ++ extra) flag =
      .ok (⟨r.hash, r.version, flag⟩, extra) := by
  obtain ⟨hh, hv⟩ := h
  have hshape : r.serialize ++ extra = r.hash ++ (leb128Write r.version ++ extra) := by
    simp [ChildRef.serialize, List.append_assoc]
  have hA : (r.serialize ++ extra).take HASH_SIZE = r.hash := by
    rw [hshape]
    exact List.take_left' hh
  have hB : (r.serialize ++ extra).drop HASH_SIZE = leb128Write r.version ++ extra := by
    rw [hshape]
    exact List.drop_left' hh
  have hguard : ¬(r.serialize ++ extra).length < HASH_SIZE := by
    simp only [ChildRef.serialize, List.length_append, hh]
    omega
  unfold ChildRef.deserialize
  rw [if_neg hguard]
  simp only [hA, hB, leb128Read_write hv]

/-! ### InternalNode: bitmap bridging -/

@[simp] theorem kindValOpt_none : kindValOpt none = 0 := rfl

@[simp] theorem kindValOpt_some (r : ChildRef) : kindValOpt (some r) = r.kindVal := rfl

theorem kindValOpt_lt (o : Option ChildRef) : kindValOpt o < 4 := by
  cases o with
  | none => simp [kindValOpt]
  | some r => simp only [kindValOpt, ChildRef.kindVal]; split <;> omega

theorem shiftLeft_lor_distrib (a b n : Nat) :
    (a ||| b) <<< n = (a <<< n) ||| (b <<< n) := by
  apply Nat.eq_of_testBit_eq
  intro t
  simp only [Nat.testBit_shiftLeft, Nat.testBit_or]
  by_cases h : n ≤ t <;> simp [h, Bool.and_or_distrib_left]

theorem foldl_lor_filterMap (n : InternalNode) : ∀ (l : List (Fin 16)) (bm : Nat),
    (l.filterMap fun i => (n.children i).map fun r => (i, r)).foldl
        (fun bm e => bm ||| (e.2.kindVal <<< (2 * e.1.val))) bm
      = l.foldl (fun bm i => bm ||| (kindValOpt (n.children i) <<< (2 * i.val))) bm := by
  intro l
  induction l with
  | nil => intro bm; rfl
  | cons i rest ih =>
    intro bm
    cases hc : n.children i with
    | none =>
      simp only [List.filterMap_cons, hc, Option.map_none', List.foldl_cons,
        kindValOpt_none, Nat.zero_shiftLeft, Nat.or_zero]
      exact ih bm
    | some r =>
      simp only [List.filterMap_cons, hc, Option.map_some', List.foldl_cons,
        kindValOpt_some]
      exact ih _

theorem foldl_lor_eq_foldr (f : Fin 16 → Nat) : ∀ (l : List (Fin 16)) (bm : Nat),
    l.foldl (fun bm i => bm ||| f i) bm = bm ||| l.foldr (fun i acc => f i ||| acc) 0 := by
  intro l
  induction l with
  | nil => intro bm; simp
  | cons i rest ih =>
    intro bm
    simp only [List.foldl_cons, List.foldr_cons, ih, Nat.or_assoc]

theorem foldr_lor_bmOf (n : InternalNode) : ∀ (l : List (Fin 16)) (j : Nat),
    (∀ k (hk : k < l.length), (l.get ⟨k, hk⟩).val = j + k) →
    l.foldr (fun i acc => (kindValOpt (n.children i) <<< (2 * i.val)) ||| acc) 0
      = n.bmOf l <<< (2 * j) := by
  intro l
  induction l with
  | nil => intro j _; simp [InternalNode.bmOf]
  | cons i rest ih =>
    intro j hpos
    have hi : i.val = j := by simpa using hpos 0 (by simp)
    have hrest : ∀ k (hk : k < rest.length), (rest.get ⟨k, hk⟩).val = (j + 1) + k := by
      intro k hk
      have := hpos (k + 1) (by simpa using Nat.succ_lt_succ hk)
      simpa [Nat.add_assoc, Nat.add_comm 1 k] using this
    simp only [List.foldr_cons, ih (j + 1) hrest, hi]
    show _ = n.bmOf (i :: rest) <<< (2 * j)
    simp only [InternalNode.bmOf, Nat.shiftLeft_eq]
    have hpow : (2 : ℕ) ^ (2 * (j + 1)) = 4 * 2 ^ (2 * j) := by
      rw [show 2 * (j + 1) = 2 * j + 2 by ring, Nat.pow_add]
      ring
    rw [hpow]
    have hk4 : kindValOpt (n.children i) < 4 := kindValOpt_lt _
    have hb : kindValOpt (n.children i) * 2 ^ (2 * j) < 2 ^ (2 * j + 2) := by
      rw [Nat.pow_add]
      have := Nat.two_pow_pos (2 * j)
      nlinarith
    calc kindValOpt (n.children i) * 2 ^ (2 * j) ||| n.bmOf rest * (4 * 2 ^ (2 * j))
        = 2 ^ (2 * j + 2) * n.bmOf rest ||| kindValOpt (n.children i) * 2 ^ (2 * j) := by
          rw [Nat.or_comm]
          congr 1
          rw [Nat.pow_add]
          ring
      _ = 2 ^ (2 * j + 2) * n.bmOf rest + kindValOpt (n.children i) * 2 ^ (2 * j) :=
          (Nat.mul_add_lt_is_or hb _).symm
      _ = (kindValOpt (n.children i) + 4 * n.bmOf rest) * 2 ^ (2 * j) := by
          rw [Nat.pow_add]
          ring

/-- The bitmap written by `InternalNode::serialize` agrees with the
slot-by-slot view consumed by the decoding loop. -/
theorem InternalNode.bitmap_eq (n : InternalNode) :
    n.bitmap = n.bmOf (List.finRange 16) := by
  unfold InternalNode.bitmap InternalNode.childEntries
  rw [foldl_lor_filterMap, foldl_lor_eq_foldr, foldr_lor_bmOf n _ 0 ?_]
  · simp
  · intro k hk
    simp [List.get_finRange]

theorem bmOf_lt (n : InternalNode) : ∀ l : List (Fin 16), n.bmOf l < 4 ^ l.length := by
  intro l
  induction l with
  | nil => simp [InternalNode.bmOf]
  | cons i rest ih =>
    have := kindValOpt_lt (n.children i)
    simp only [InternalNode.bmOf, List.length_cons, Nat.pow_succ]
    have h4 : 4 ^ rest.length * 4 = 4 * 4 ^ rest.length := by ring
    omega

theorem bmOf_ne_zero (n : InternalNode) :
    ∀ l : List (Fin 16), (∃ i ∈ l, (n.children i).isSome) → n.bmOf l ≠ 0 := by
  intro l
  induction l with
  | nil => rintro ⟨i, hi, _⟩; simp at hi
  | cons i rest ih =>
    rintro ⟨j, hj, hsome⟩
    rcases List.mem_cons.mp hj with rfl | hj2
    · cases hc : n.children j with
      | none => rw [hc] at hsome; simp at hsome
      | some r =>
        have : 1 ≤ kindValOpt (n.children j) := by
          rw [hc]
          simp only [kindValOpt, ChildRef.kindVal]
          split <;> omega
        simp only [InternalNode.bmOf]
        omega
    · have := ih ⟨j, hj2, hsome⟩
      simp only [InternalNode.bmOf]
      omega

/-- An internal node with at least one child has a nonzero bitmap. -/
theorem bmOf_finRange_ne_zero (n : InternalNode) (h : 1 ≤ n.childCount) :
    n.bmOf (List.finRange 16) ≠ 0 := by
  apply bmOf_ne_zero
  obtain ⟨e, he⟩ : ∃ e, e ∈ n.childEntries := by
    unfold InternalNode.childCount at h
    cases hc : n.childEntries with
    | nil => rw [hc] at h; simp at h
    | cons e es => exact ⟨e, by simp⟩
  obtain ⟨i, hmem, hmap⟩ := List.mem_filterMap.mp he
  refine ⟨i, List.mem_finRange i, ?_⟩
  cases hc : n.children i with
  | none => rw [hc] at hmap; simp at hmap
  | some r => simp

/-! ### InternalNode: decoding loop inverts serialization -/

theorem flatMap_childEntries (n : InternalNode) : ∀ l : List (Fin 16),
    ((l.filterMap fun i => (n.children i).map fun r => (i, r)).flatMap
        fun e => e.2.serialize)
      = n.bodyOf l := by
  intro l
  induction l with
  | nil => rfl
  | cons i rest ih =>
    cases hc : n.children i with
    | none =>
      simp only [List.filterMap_cons, hc, Option.map_none', InternalNode.bodyOf, ih,
        List.nil_append]
    | some r =>
      simp only [List.filterMap_cons, hc, Option.map_some', List.flatMap_cons,
        InternalNode.bodyOf, ih]

/-- `InternalNode::serialize` as bitmap bytes plus the slot-ordered child
bodies. -/
theorem InternalNode.serialize_eq (n : InternalNode) :
    n.serialize = leBytes 4 n.bitmap ++ n.bodyOf (List.finRange 16) := by
  unfold InternalNode.serialize InternalNode.childEntries
  rw [flatMap_childEntries]

theorem ChildKind.deserialize_zero : ChildKind.deserialize 0 = .ok .None := rfl

theorem ChildKind.deserialize_one : ChildKind.deserialize 1 = .ok .Internal := rfl

theorem ChildKind.deserialize_two : ChildKind.deserialize 2 = .ok .Leaf := rfl

theorem internalLoop_bodyOf (n : InternalNode) : ∀ (l : List (Fin 16))
    (acc : InternalNode) (rest : List Byte),
    (∀ i ∈ l, ChildRef.validOpt (n.children i)) →
    internalLoop l (n.bmOf l) (n.bodyOf l ++ rest) acc =
      .ok (InternalNode.overrideOn acc n l, rest) := by
  intro l
  induction l with
  | nil =>
    intro acc rest _
    simp [internalLoop, InternalNode.bodyOf, InternalNode.overrideOn]
  | cons i rest' ih =>
    intro acc rest hval
    have hkv := kindValOpt_lt (n.children i)
    have hmod : n.bmOf (i :: rest') % 4 = kindValOpt (n.children i) := by
      simp only [InternalNode.bmOf]
      omega
    have hdiv : n.bmOf (i :: rest') / 4 = n.bmOf rest' := by
      simp only [InternalNode.bmOf]
      omega
    have hvrest : ∀ j ∈ rest', ChildRef.validOpt (n.children j) := fun j hj =>
      hval j (List.mem_cons_of_mem _ hj)
    cases hc : n.children i with
    | none =>
      have hbody : n.bodyOf (i :: rest') = n.bodyOf rest' := by
        simp only [InternalNode.bodyOf, hc, List.nil_append]
      have hover : InternalNode.overrideOn acc n (i :: rest') =
          InternalNode.overrideOn acc n rest' := by
        simp only [InternalNode.overrideOn, hc]
      rw [hbody, hover]
      show internalLoop (i :: rest') (n.bmOf (i :: rest')) (n.bodyOf rest' ++ rest) acc = _
      unfold internalLoop
      rw [hmod, hdiv]
      rw [hc] at hkv ⊢
      simp only [kindValOpt_none, ChildKind.deserialize_zero]
      exact ih acc rest hvrest
    | some r =>
      have hrv : r.valid := by
        have := hval i (List.mem_cons_self _ _)
        rw [hc] at this
        exact this
      have hbody : n.bodyOf (i :: rest') ++ rest =
          r.serialize ++ (n.bodyOf rest' ++ rest) := by
        simp only [InternalNode.bodyOf, hc, List.append_assoc]
      have hover : InternalNode.overrideOn acc n (i :: rest') =
          InternalNode.overrideOn (acc.insertChildRef i r) n rest' := by
        simp only [InternalNode.overrideOn, hc]
      rw [hover]
      show internalLoop (i :: rest') (n.bmOf (i :: rest')) (n.bodyOf (i :: rest') ++ rest)
          acc = _
      unfold internalLoop
      rw [hmod, hbody]
      cases hl : r.is_leaf with
      | false =>
        have hkind : kindValOpt (n.children i) = 1 := by
          rw [hc]
          simp [kindValOpt_some, ChildRef.kindVal, hl]
        rw [hkind]
        simp only [ChildKind.deserialize_one]
        rw [childRef_deserialize_append r hrv false _]
        have hr : (⟨r.hash, r.version, false⟩ : ChildRef) = r := by
          cases r
          simp_all
        rw [hr, hdiv]
        exact ih _ rest hvrest
      | true =>
        have hkind : kindValOpt (n.children i) = 2 := by
          rw [hc]
          simp [kindValOpt_some, ChildRef.kindVal, hl]
        rw [hkind]
        simp only [ChildKind.deserialize_two]
        rw [childRef_deserialize_append r hrv true _]
        have hr : (⟨r.hash, r.version, true⟩ : ChildRef) = r := by
          cases r
          simp_all
        rw [hr, hdiv]
        exact ih _ rest hvrest

theorem InternalNode.ext_children {a b : InternalNode} (h : a.children = b.children) :
    a = b := by
  cases a
  cases b
  simpa using h

theorem insertChildRef_children (acc : InternalNode) (i j : Fin 16) (r : ChildRef) :
    (acc.insertChildRef i r).children j = if j = i then some r else acc.children j := by
  simp [InternalNode.insertChildRef, Function.update_apply]

theorem overrideOn_children (n : InternalNode) : ∀ (l : List (Fin 16))
    (acc : InternalNode) (j : Fin 16),
    (InternalNode.overrideOn acc n l).children j =
      if j ∈ l ∧ (n.children j).isSome then n.children j else acc.children j := by
  intro l
  induction l with
  | nil =>
    intro acc j
    simp [InternalNode.overrideOn]
  | cons i rest ih =>
    intro acc j
    cases hc : n.children i with
    | none =>
      simp only [InternalNode.overrideOn, hc, ih]
      by_cases hji : j = i
      · subst hji
        have hs : (n.children j).isSome = false := by rw [hc]; rfl
        simp [hs]
      · simp [List.mem_cons, hji]
    | some r =>
      simp only [InternalNode.overrideOn, hc, ih]
      by_cases hmem : j ∈ rest ∧ (n.children j).isSome
      · rw [if_pos hmem, if_pos ⟨List.mem_cons_of_mem _ hmem.1, hmem.2⟩]
      · rw [if_neg hmem, insertChildRef_children]
        by_cases hji : j = i
        · subst hji
          rw [if_pos rfl, hc, if_pos ⟨List.mem_cons_self _ _, by simp [hc]⟩]
        · rw [if_neg hji, if_neg (by
            rintro ⟨hmem2, hsome⟩
            rcases List.mem_cons.mp hmem2 with rfl | hmem3
            · exact hji rfl
            · exact hmem ⟨hmem3, hsome⟩)]

theorem overrideOn_withCapacity (n : InternalNode) :
    InternalNode.overrideOn .withCapacity n (List.finRange 16) = n := by
  apply InternalNode.ext_children
  funext j
  rw [overrideOn_children]
  by_cases hs : (n.children j).isSome
  · simp [hs]
  · cases hc : n.children j with
    | none => simp [hc, InternalNode.withCapacity]
    | some r => rw [hc] at hs; simp at hs

/-- `InternalNode::deserialize` inverts `InternalNode::serialize`,
tolerating trailing bytes. -/
theorem internal_deserialize_append (n : InternalNode) (h : n.valid)
    (extra : List Byte) :
    InternalNode.deserialize (n.serialize ++ extra) = .ok n := by
  obtain ⟨hvalid, hcount⟩ := h
  have hshape : n.serialize ++ extra =
      leBytes 4 n.bitmap ++ (n.bodyOf (List.finRange 16) ++ extra) := by
    rw [InternalNode.serialize_eq, List.append_assoc]
  have hbmlt : n.bmOf (List.finRange 16) < 4 ^ 16 := by
    have := bmOf_lt n (List.finRange 16)
    simpa using this
  have hA : (n.serialize ++ extra).take 4 = leBytes 4 n.bitmap := by
    rw [hshape]
    exact List.take_left' (leBytes_length _ _)
  have hB : (n.serialize ++ extra).drop 4 = n.bodyOf (List.finRange 16) ++ extra := by
    rw [hshape]
    exact List.drop_left' (leBytes_length _ _)
  have hbm : bytesToNatLE ((n.serialize ++ extra).take 4) = n.bmOf (List.finRange 16) := by
    rw [hA, bytesToNatLE_leBytes, InternalNode.bitmap_eq]
    apply Nat.mod_eq_of_lt
    have : (256 : ℕ) ^ 4 = 4 ^ 16 := by norm_num
    omega
  have hguard : ¬(n.serialize ++ extra).length < 4 := by
    rw [hshape]
    simp
  have hnz : n.bmOf (List.finRange 16) ≠ 0 := bmOf_finRange_ne_zero n hcount
  unfold InternalNode.deserialize
  rw [if_neg hguard]
  simp only [hbm, hnz, if_false, hB]
  rw [internalLoop_bodyOf n (List.finRange 16) .withCapacity extra
    (fun i _ => hvalid i)]
  rw [overrideOn_withCapacity]

/-! ### Root: round-trip and the leaf-first fallback -/

theorem childEntries_mem {n : InternalNode} {e : Fin 16 × ChildRef}
    (he : e ∈ n.childEntries) : n.children e.1 = some e.2 := by
  obtain ⟨i, _, hmap⟩ := List.mem_filterMap.mp he
  cases hc : n.children i with
  | none => rw [hc] at hmap; simp at hmap
  | some r =>
    rw [hc] at hmap
    simp only [Option.map_some', Option.some.injEq] at hmap
    rw [← hmap, hc]

/-- The encoding of a single-child internal node is shorter than the
`KEY_SIZE + HASH_SIZE` minimum demanded by the leaf decoder. -/
theorem InternalNode.serialize_length_single (n : InternalNode) (hv : n.valid)
    (h1 : n.childCount = 1) : n.serialize.length < KEY_SIZE + HASH_SIZE := by
  obtain ⟨e, he⟩ := List.length_eq_one.mp h1
  have hch : n.children e.1 = some e.2 := childEntries_mem (by rw [he]; simp)
  have hev : e.2.valid := by
    have := hv.1 e.1
    rw [hch] at this
    exact this
  have hvlen : (leb128Write e.2.version).length ≤ 10 :=
    leb128Write_length_le _ 10 (by omega)
      (by
        have := hev.2
        have h70 : (2 : ℕ) ^ 64 < 2 ^ (7 * 10) := by norm_num
        omega)
  unfold InternalNode.serialize
  rw [he]
  simp only [List.flatMap_cons, List.flatMap_nil, List.append_nil, List.length_append,
    leBytes_length, ChildRef.serialize, hev.1]
  simp only [KEY_SIZE, HASH_SIZE]
  omega

/-- `Root::deserialize` inverts `Root::serialize` on tree-valid roots,
including the degenerate `leaf_count == 1` internal-node fallback. -/
theorem root_deserialize_serialize (r : Root) (h : r.valid) :
    Root.deserialize r.serialize = .ok r := by
  cases r with
  | Empty =>
    unfold Root.serialize Root.deserialize
    rw [← List.append_nil (leb128Write 0), leb128Read_write (by norm_num)]
  | Filled lc node =>
    cases node with
    | Leaf l =>
      obtain ⟨rfl, hl⟩ := h
      have hld : LeafNode.deserialize l.serialize = .ok l := by
        have := leaf_deserialize_append l hl []
        rwa [List.append_nil] at this
      unfold Root.serialize Root.deserialize Node.serialize
      rw [leb128Read_write (by norm_num)]
      simp only [hld]
    | Internal n =>
      obtain ⟨hn, hge, hlt, h1⟩ := h
      have hid : InternalNode.deserialize n.serialize = .ok n := by
        have := internal_deserialize_append n hn []
        rwa [List.append_nil] at this
      unfold Root.serialize Root.deserialize Node.serialize
      rw [leb128Read_write hlt]
      match lc, hge with
      | 1, _ =>
        have hlen : n.serialize.length < KEY_SIZE + HASH_SIZE :=
          InternalNode.serialize_length_single n hn (h1 rfl)
        have hld : LeafNode.deserialize n.serialize =
            .error DeserializeErrorKind.UnexpectedEof.intoError := by
          unfold LeafNode.deserialize
          rw [if_pos hlen]
        simp only [hld, hid]
      | k + 2, _ =>
        simp only [hid]

/-! ### Strings, decimal parsing, and tag entries -/

theorem validUtf8Aux_adequate : ∀ fuel l, l.length ≤ fuel →
    validUtf8Aux fuel l = validUtf8 l := by
  intro fuel
  induction fuel using Nat.strong_induction_on with
  | _ fuel ih =>
    intro l hl
    match fuel, l with
    | fuel, [] => cases fuel <;> rfl
    | f + 1, b :: rest =>
      have hrl : rest.length ≤ f := by simpa using hl
      show validUtf8Aux (f + 1) (b :: rest) = validUtf8Aux (rest.length + 1) (b :: rest)
      have hr : ∀ k, validUtf8Aux f (rest.drop k) =
          validUtf8Aux rest.length (rest.drop k) := by
        intro k
        rw [ih f (by omega) _ (by simp only [List.length_drop]; omega),
          ih rest.length (by omega) _ (by simp only [List.length_drop]; omega)]
      have h0 : validUtf8Aux f rest = validUtf8Aux rest.length rest := by
        have := hr 0
        simpa using this
      simp only [validUtf8Aux, h0, hr 1, hr 2, hr 3]

theorem validUtf8_cons_ascii {b : Byte} (rest : List Byte) (hb : b.val < 128) :
    validUtf8 (b :: rest) = validUtf8 rest := by
  show validUtf8Aux (b :: rest).length (b :: rest) = validUtf8 rest
  simp only [List.length_cons, validUtf8Aux]
  rw [if_pos hb]
  exact validUtf8Aux_adequate rest.length rest (Nat.le_refl _)

/-- Prepending pure-ASCII bytes does not affect UTF-8 validity. -/
theorem validUtf8_ascii_append : ∀ (p s : List Byte), (∀ b ∈ p, b.val < 128) →
    validUtf8 (p ++ s) = validUtf8 s := by
  intro p
  induction p with
  | nil => intro s _; rfl
  | cons b rest ih =>
    intro s hall
    have hb : b.val < 128 := hall b (List.mem_cons_self _ _)
    show validUtf8 (b :: (rest ++ s)) = validUtf8 s
    rw [validUtf8_cons_ascii _ hb]
    exact ih s fun x hx => hall x (List.mem_cons_of_mem _ hx)

theorem isPrefixOf_append (p s : List Byte) : p.isPrefixOf (p ++ s) = true := by
  induction p with
  | nil => simp [List.isPrefixOf]
  | cons b rest ih => simp [List.isPrefixOf, ih]

theorem ascii_custom_append_drop (k : List Byte) :
    (ascii "custom." ++ k).drop 7 = k := by
  have h7 : (ascii "custom.").length = 7 := by decide
  rw [← h7]
  exact List.drop_left _ _

/-- A `custom.`-prefixed key differs from any key whose first byte is not
`c`. -/
theorem custom_key_ne (k : List Byte) (s : String)
    (hs : (ascii s)[0]? ≠ some ⟨99, by omega⟩) : ascii "custom." ++ k ≠ ascii s := by
  intro h
  apply hs
  rw [← h]
  rfl

theorem insertCustom_notmem (m : List (List Byte × List Byte)) (k v : List Byte)
    (h : ∀ e ∈ m, e.1 ≠ k) : insertCustom m k v = m ++ [(k, v)] := by
  unfold insertCustom
  rw [if_neg]
  intro hany
  obtain ⟨e, he, hek⟩ := List.any_eq_true.mp hany
  exact h e he (of_decide_eq_true hek)

theorem parseDigits_append : ∀ (l1 l2 : List Byte) (acc m : Nat),
    parseDigits l1 acc = .ok m → parseDigits (l1 ++ l2) acc = parseDigits l2 m := by
  intro l1
  induction l1 with
  | nil =>
    intro l2 acc m h
    simp only [parseDigits] at h
    cases h
    rfl
  | cons b rest ih =>
    intro l2 acc m h
    simp only [parseDigits] at h ⊢
    by_cases hd : 48 ≤ b.val ∧ b.val ≤ 57
    · rw [if_pos hd] at h ⊢
      by_cases hb : acc * 10 + (b.val - 48) < 2 ^ 64
      · rw [if_pos hb] at h ⊢
        exact ih l2 _ m h
      · rw [if_neg hb] at h
        cases h
    · rw [if_neg hd] at h
      cases h

theorem natToDecimal_digits : ∀ n, ∀ b ∈ natToDecimal n, 48 ≤ b.val ∧ b.val ≤ 57 := by
  intro n
  induction n using Nat.strong_induction_on with
  | _ n ih =>
    intro b hb
    by_cases h : n < 10
    · rw [natToDecimal_small h] at hb
      simp at hb
      subst hb
      constructor <;> simp <;> omega
    · rw [natToDecimal_large (by omega)] at hb
      rcases List.mem_append.mp hb with hb1 | hb2
      · exact ih (n / 10) (Nat.div_lt_self (by omega) (by omega)) b hb1
      · simp at hb2
        subst hb2
        constructor <;> simp <;> omega

theorem natToDecimal_ne_nil (n : Nat) : natToDecimal n ≠ [] := by
  by_cases h : n < 10
  · rw [natToDecimal_small h]; simp
  · rw [natToDecimal_large (by omega)]; simp

theorem byte_val_mk (a : Nat) (h : a < 256) : ((⟨a, h⟩ : Byte) : Nat) = a := rfl

theorem natToDecimal_parseDigits : ∀ n acc,
    acc * 10 ^ (natToDecimal n).length + n < 2 ^ 64 →
    parseDigits (natToDecimal n) acc =
      .ok (acc * 10 ^ (natToDecimal n).length + n) := by
  intro n
  induction n using Nat.strong_induction_on with
  | _ n ih =>
    intro acc hacc
    by_cases h : n < 10
    · rw [natToDecimal_small h] at hacc ⊢
      simp only [List.length_cons, List.length_nil, pow_one, Nat.zero_add] at hacc ⊢
      simp only [parseDigits, byte_val_mk]
      rw [if_pos (by omega)]
      rw [show 48 + n - 48 = n by omega]
      rw [if_pos (by omega)]
    · rw [natToDecimal_large (by omega)] at hacc ⊢
      simp only [List.length_append, List.length_cons, List.length_nil] at hacc ⊢
      set L := (natToDecimal (n / 10)).length with hL
      have hpow : 10 ^ (L + (0 + 1)) = 10 ^ L * 10 := by
        rw [Nat.pow_succ]
      rw [hpow] at hacc
      have hdivbound : acc * 10 ^ L + n / 10 < 2 ^ 64 := by
        have h10 : 10 * (acc * 10 ^ L + n / 10) ≤ acc * (10 ^ L * 10) + n := by
          have := Nat.mul_div_le n 10
          nlinarith
        omega
      have hih := ih (n / 10) (Nat.div_lt_self (by omega) (by omega)) acc hdivbound
      rw [parseDigits_append _ _ _ _ hih]
      simp only [parseDigits, byte_val_mk]
      rw [if_pos (by omega)]
      rw [show 48 + n % 10 - 48 = n % 10 by omega]
      have hfin : (acc * 10 ^ L + n / 10) * 10 + n % 10 =
          acc * (10 ^ L * 10) + n := by
        have := Nat.div_add_mod n 10
        nlinarith
      rw [hfin, if_pos (by omega), hpow]

/-- `str::parse::<usize>` inverts `usize::to_string` for `usize`
values. -/
theorem parseUsize_natToDecimal (d : Nat) (hd : d < 2 ^ 64) :
    parseUsize (natToDecimal d) = .ok d := by
  have hp := natToDecimal_parseDigits d 0 (by simpa using hd)
  simp only [Nat.zero_mul, Nat.zero_add] at hp
  cases hs : natToDecimal d with
  | nil => exact absurd hs (natToDecimal_ne_nil d)
  | cons b rest =>
    rw [hs] at hp
    have hb : 48 ≤ b.val ∧ b.val ≤ 57 :=
      natToDecimal_digits d b (by rw [hs]; simp)
    show parseUsize (b :: rest) = .ok d
    simp only [parseUsize]
    rw [if_neg (by omega)]
    exact hp

/-- `TreeTags::deserialize_str` inverts `TreeTags::serialize_str`,
leaving the remaining cursor. -/
theorem deserializeStr_append (s : List Byte) (h : strValid s) (rest : List Byte) :
    deserializeStr (serializeStr s ++ rest) = .ok (s, rest) := by
  obtain ⟨hu, hl⟩ := h
  have hguard : ¬(s ++ rest).length < s.length := by simp
  unfold serializeStr deserializeStr
  rw [List.append_assoc, leb128Read_write hl]
  show (if (s ++ rest).length < s.length then
      (Except.error DeserializeErrorKind.UnexpectedEof :
        Except DeserializeErrorKind (List Byte × List Byte))
    else if validUtf8 ((s ++ rest).take s.length) = true then
      Except.ok ((s ++ rest).take s.length, (s ++ rest).drop s.length)
    else Except.error DeserializeErrorKind.Utf8) = Except.ok (s, rest)
  rw [if_neg hguard, List.take_left s rest, if_pos hu, List.drop_left s rest]

theorem validUtf8_of_ascii : ∀ l : List Byte, (∀ b ∈ l, b.val < 128) →
    validUtf8 l = true := by
  intro l
  induction l with
  | nil => intro _; rfl
  | cons b rest ih =>
    intro hall
    rw [validUtf8_cons_ascii rest (hall b (List.mem_cons_self _ _))]
    exact ih fun x hx => hall x (List.mem_cons_of_mem _ hx)

/-- A value below `10 ^ k` has at most `k` decimal digits. -/
theorem natToDecimal_length_le : ∀ n k, 1 ≤ k → n < 10 ^ k →
    (natToDecimal n).length ≤ k := by
  intro n
  induction n using Nat.strong_induction_on with
  | _ n ih =>
    intro k hk hn
    by_cases h : n < 10
    · rw [natToDecimal_small h]; simpa using hk
    · rw [natToDecimal_large (by omega)]
      match k, hk with
      | 1, _ =>
        exfalso
        have : n < 10 := by simpa using hn
        omega
      | k + 2, _ =>
        simp only [List.length_append, List.length_cons, List.length_nil]
        have hdiv : n / 10 < 10 ^ (k + 1) := by
          apply Nat.div_lt_of_lt_mul
          have : 10 ^ (k + 1) * 10 = 10 ^ (k + 2) := by
            rw [← Nat.pow_succ]
          omega
        have := ih (n / 10) (Nat.div_lt_self (by omega) (by omega)) (k + 1)
          (by omega) hdiv
        omega

theorem strValid_natToDecimal (d : Nat) (hd : d < 2 ^ 64) :
    strValid (natToDecimal d) := by
  constructor
  · exact validUtf8_of_ascii _ fun b hb => by
      have := natToDecimal_digits d b hb
      omega
  · have h1 : d < 10 ^ 20 := by omega
    have := natToDecimal_length_le d 20 (by omega) h1
    omega

/-- One iteration of the tag-reading loop on a well-formed entry. -/
theorem tagsLoop_step (n : Nat) (key val rest : List Byte) (acc acc2 : TagAcc)
    (hk : strValid key) (hv : strValid val)
    (hp : processTag acc key val = .ok acc2) :
    tagsLoop (n + 1) (serializeStr key ++ (serializeStr val ++ rest)) acc =
      tagsLoop n rest acc2 := by
  have h1 : tagsLoop (n + 1) (serializeStr key ++ (serializeStr val ++ rest)) acc =
      match processTag acc key val with
      | .error e => .error e
      | .ok a => tagsLoop n rest a := by
    simp only [tagsLoop, deserializeStr_append key hk, deserializeStr_append val hv]
  rw [h1, hp]

theorem processTag_architecture (acc : TagAcc) (v : List Byte) :
    processTag acc (ascii "architecture") v = .ok { acc with architecture := some v } := by
  unfold processTag
  rw [if_pos rfl]

theorem processTag_depth (acc : TagAcc) (v : List Byte) (d : Nat)
    (hp : parseUsize v = .ok d) :
    processTag acc (ascii "depth") v = .ok { acc with depth := some d } := by
  unfold processTag
  rw [if_neg (by decide), if_neg (by decide), if_pos rfl, hp]

theorem processTag_hasher (acc : TagAcc) (v : List Byte) :
    processTag acc (ascii "hasher") v = .ok { acc with hasher := some v } := by
  unfold processTag
  rw [if_neg (by decide), if_pos rfl]

theorem processTag_is_recovering (acc : TagAcc) :
    processTag acc (ascii "is_recovering") (ascii "true") =
      .ok { acc with is_recovering := true } := by
  unfold processTag
  rw [if_neg (by decide), if_neg (by decide), if_neg (by decide), if_pos rfl]
  rfl

theorem processTag_custom (acc : TagAcc) (k v : List Byte) :
    processTag acc (ascii "custom." ++ k) v =
      .ok { acc with custom := insertCustom acc.custom k v } := by
  unfold processTag
  rw [if_neg (custom_key_ne k "architecture" (by decide)),
    if_neg (custom_key_ne k "hasher" (by decide)),
    if_neg (custom_key_ne k "depth" (by decide)),
    if_neg (custom_key_ne k "is_recovering" (by decide)),
    if_pos (isPrefixOf_append (ascii "custom.") k),
    ascii_custom_append_drop]

/-- The tag-reading loop consumes a serialized run of custom entries with
fresh keys, appending them to the accumulated map in order. -/
theorem tagsLoop_customs : ∀ (cs : List (List Byte × List Byte)) (acc : TagAcc)
    (extra : List Byte),
    (∀ e ∈ cs, strValid e.1 ∧ strValid e.2 ∧ e.1.length + 7 < 2 ^ 64) →
    (∀ e ∈ cs, ∀ e2 ∈ acc.custom, e2.1 ≠ e.1) →
    (cs.map Prod.fst).Nodup →
    tagsLoop cs.length
        ((cs.flatMap fun e => serializeStr (ascii "custom." ++ e.1) ++ serializeStr e.2)
          ++ extra) acc
      = .ok ({ acc with custom := acc.custom ++ cs }, extra) := by
  intro cs
  induction cs with
  | nil =>
    intro acc extra _ _ _
    simp [tagsLoop]
  | cons e cs ih =>
    intro acc extra hval hfresh hnodup
    obtain ⟨he1, he2, he3⟩ := hval e (List.mem_cons_self _ _)
    have hshape : ((e :: cs).flatMap fun e =>
          serializeStr (ascii "custom." ++ e.1) ++ serializeStr e.2) ++ extra
        = serializeStr (ascii "custom." ++ e.1) ++ (serializeStr e.2 ++
            ((cs.flatMap fun e =>
              serializeStr (ascii "custom." ++ e.1) ++ serializeStr e.2) ++ extra)) := by
      simp [List.flatMap_cons, List.append_assoc]
    have hkey : strValid (ascii "custom." ++ e.1) := by
      constructor
      · rw [validUtf8_ascii_append _ _ (by decide)]
        exact he1.1
      · have h7 : (ascii "custom.").length = 7 := by decide
        simp only [List.length_append, h7]
        omega
    have hproc : processTag acc (ascii "custom." ++ e.1) e.2 =
        .ok { acc with custom := acc.custom ++ [(e.1, e.2)] } := by
      rw [processTag_custom,
        insertCustom_notmem _ _ _ fun e2 he2' => hfresh e (List.mem_cons_self _ _) e2 he2']
    show tagsLoop (cs.length + 1) _ acc = _
    rw [hshape, tagsLoop_step cs.length _ _ _ acc _ hkey he2 hproc]
    have hfresh2 : ∀ e' ∈ cs, ∀ e2 ∈ acc.custom ++ [(e.1, e.2)], e2.1 ≠ e'.1 := by
      intro e' he' e2 he2'
      rcases List.mem_append.mp he2' with hmem | hmem
      · exact hfresh e' (List.mem_cons_of_mem _ he') e2 hmem
      · simp only [List.mem_singleton] at hmem
        subst hmem
        have hnd := hnodup
        simp only [List.map_cons, List.nodup_cons] at hnd
        intro heq
        exact hnd.1 (heq ▸ List.mem_map_of_mem Prod.fst he')
    have hval2 : ∀ e' ∈ cs, strValid e'.1 ∧ strValid e'.2 ∧ e'.1.length + 7 < 2 ^ 64 :=
      fun e' he' => hval e' (List.mem_cons_of_mem _ he')
    have hnodup2 : (cs.map Prod.fst).Nodup := by
      simp only [List.map_cons, List.nodup_cons] at hnodup
      exact hnodup.2
    rw [ih _ extra hval2 hfresh2 hnodup2]
    simp [List.append_assoc]

/-- `TreeTags::deserialize` inverts `TreeTags::serialize`, leaving
trailing bytes on the cursor. -/
theorem treeTags_deserialize_serialize (t : TreeTags) (h : t.valid) (extra : List Byte) :
    TreeTags.deserialize (t.serialize ++ extra) = .ok (t, extra) := by
  obtain ⟨ha, hh, hd, hnodup, hcs, hcount⟩ := h
  have hflat : t.serialize ++ extra =
      leb128Write (3 + (if t.is_recovering then 1 else 0) + t.custom.length) ++
        (serializeStr (ascii "architecture") ++ (serializeStr t.architecture ++
        (serializeStr (ascii "depth") ++ (serializeStr (natToDecimal t.depth) ++
        (serializeStr (ascii "hasher") ++ (serializeStr t.hasher ++
        ((if t.is_recovering then
            serializeStr (ascii "is_recovering") ++ serializeStr (ascii "true")
          else []) ++
        ((t.custom.flatMap fun e =>
            serializeStr (ascii "custom." ++ e.1) ++ serializeStr e.2) ++ extra)))))))) := by
    simp [TreeTags.serialize, List.append_assoc]
  have hloop : tagsLoop (3 + (if t.is_recovering then 1 else 0) + t.custom.length)
      (serializeStr (ascii "architecture") ++ (serializeStr t.architecture ++
        (serializeStr (ascii "depth") ++ (serializeStr (natToDecimal t.depth) ++
        (serializeStr (ascii "hasher") ++ (serializeStr t.hasher ++
        ((if t.is_recovering then
            serializeStr (ascii "is_recovering") ++ serializeStr (ascii "true")
          else []) ++
        ((t.custom.flatMap fun e =>
            serializeStr (ascii "custom." ++ e.1) ++ serializeStr e.2) ++ extra))))))))
      TagAcc.init
      = .ok (⟨some t.architecture, some t.hasher, some t.depth,
          t.is_recovering, t.custom⟩, extra) := by
    have hcustoms := tagsLoop_customs t.custom
      ⟨some t.architecture, some t.hasher, some t.depth, t.is_recovering, []⟩
      extra hcs (by intro e _ e2 he2; simp at he2) hnodup
    simp only [List.nil_append] at hcustoms
    cases hrec : t.is_recovering with
    | false =>
      have hcnteq : (3 + if (false : Bool) = true then 1 else 0) + t.custom.length =
          t.custom.length + 3 := by
        have h0 : (if (false : Bool) = true then 1 else 0) = 0 := by simp
        omega
      rw [hcnteq]
      rw [show t.custom.length + 3 = (t.custom.length + 2) + 1 from rfl]
      rw [tagsLoop_step _ _ _ _ _ _ (by decide) ha (processTag_architecture _ _)]
      rw [show t.custom.length + 2 = (t.custom.length + 1) + 1 from rfl]
      rw [tagsLoop_step _ _ _ _ _ _ (by decide) (strValid_natToDecimal _ hd)
        (processTag_depth _ _ _ (parseUsize_natToDecimal _ hd))]
      rw [tagsLoop_step _ _ _ _ _ _ (by decide) hh (processTag_hasher _ _)]
      simp only [List.nil_append]
      rw [hrec] at hcustoms
      exact hcustoms
    | true =>
      have hcnteq : (3 + if (true : Bool) = true then 1 else 0) + t.custom.length =
          t.custom.length + 4 := by
        have h0 : (if (true : Bool) = true then 1 else 0) = 1 := by simp
        omega
      rw [hcnteq]
      rw [show t.custom.length + 4 = (t.custom.length + 3) + 1 from rfl]
      rw [tagsLoop_step _ _ _ _ _ _ (by decide) ha (processTag_architecture _ _)]
      rw [show t.custom.length + 3 = (t.custom.length + 2) + 1 from rfl]
      rw [tagsLoop_step _ _ _ _ _ _ (by decide) (strValid_natToDecimal _ hd)
        (processTag_depth _ _ _ (parseUsize_natToDecimal _ hd))]
      rw [show t.custom.length + 2 = (t.custom.length + 1) + 1 from rfl]
      rw [tagsLoop_step _ _ _ _ _ _ (by decide) hh (processTag_hasher _ _)]
      rw [if_pos rfl, List.append_assoc]
      rw [tagsLoop_step _ _ _ _ _ _ (by decide) (by decide)
        (processTag_is_recovering _)]
      rw [hrec] at hcustoms
      exact hcustoms
  unfold TreeTags.deserialize
  rw [hflat]
  simp only [leb128Read_write (show
    (3 + (if t.is_recovering then 1 else 0) + t.custom.length) < 2 ^ 64 by omega), hloop]

/-- `Manifest::deserialize` inverts `Manifest::serialize`; when tags are
present, trailing bytes are ignored. -/
theorem manifest_deserialize_serialize (m : Manifest) (h : m.valid) (extra : List Byte)
    (hextra : m.tags = none → extra = []) :
    Manifest.deserialize (m.serialize ++ extra) = .ok m := by
  obtain ⟨hvc, htags⟩ := h
  cases hm : m.tags with
  | none =>
    have hex : extra = [] := hextra hm
    subst hex
    unfold Manifest.deserialize
    rw [show m.serialize ++ ([] : List Byte) = leb128Write m.version_count ++ [] from by
      simp [Manifest.serialize, hm]]
    simp only [leb128Read_write hvc, List.isEmpty_nil, if_true]
    rw [← hm]
  | some t =>
    have htv : t.valid := by
      rw [hm] at htags
      exact htags
    have htne : t.serialize ++ extra ≠ [] := by
      intro hc
      have h1 := leb128Write_length_pos
        (3 + (if t.is_recovering then 1 else 0) + t.custom.length)
      have h2 : (t.serialize ++ extra).length = 0 := by rw [hc]; rfl
      rw [List.length_append] at h2
      have h3 : t.serialize.length = 0 := by omega
      rw [TreeTags.serialize] at h3
      simp only [List.length_append] at h3
      omega
    have hne : (t.serialize ++ extra).isEmpty = false := by
      cases hc : t.serialize ++ extra with
      | nil => exact absurd hc htne
      | cons a l => rfl
    have hser : m.serialize ++ extra =
        leb128Write m.version_count ++ (t.serialize ++ extra) := by
      simp [Manifest.serialize, hm, List.append_assoc]
    unfold Manifest.deserialize
    rw [hser]
    simp only [leb128Read_write hvc, hne, Bool.false_eq_true, if_false,
      treeTags_deserialize_serialize t htv extra]
    rw [← hm]

/-! ### Truncated-prefix behaviour -/

theorem take_append_ge {α : Type} (l1 l2 : List α) (n : Nat) (h : l1.length ≤ n) :
    (l1 ++ l2).take n = l1 ++ l2.take (n - l1.length) := by
  rw [List.take_append_eq_append_take, List.take_of_length_le h]

theorem take_append_le {α : Type} (l1 l2 : List α) (n : Nat) (h : n ≤ l1.length) :
    (l1 ++ l2).take n = l1.take n := by
  rw [List.take_append_eq_append_take, show n - l1.length = 0 by omega]
  simp

/-- Decoding any strict prefix of a leaf encoding fails with
`UnexpectedEof` (first 64 bytes missing) or a `Leb128` error (the leaf
index cut short). -/
theorem leaf_deserialize_take (l : LeafNode) (hl : l.valid) (k : Nat)
    (hk : k < l.serialize.length) :
    ∃ e, LeafNode.deserialize (l.serialize.take k) = .error e ∧
      (e.kind = .UnexpectedEof ∨ ∃ le, e.kind = .Leb128 le) := by
  obtain ⟨hkey, hh, hi⟩ := hl
  have hlen : l.serialize.length = 64 + (leb128Write l.leaf_index).length := by
    simp [LeafNode.serialize, hh, KEY_SIZE, HASH_SIZE]
    omega
  have hshape : l.serialize =
      (beBytes KEY_SIZE l.full_key ++ l.value_hash) ++ leb128Write l.leaf_index := by
    simp [LeafNode.serialize, List.append_assoc]
  have hlen64 : (beBytes KEY_SIZE l.full_key ++ l.value_hash).length = 64 := by
    simp [hh, KEY_SIZE, HASH_SIZE]
  by_cases hk64 : k < 64
  · refine ⟨DeserializeErrorKind.UnexpectedEof.intoError, ?_, Or.inl rfl⟩
    unfold LeafNode.deserialize
    rw [if_pos]
    have : (l.serialize.take k).length = k := by
      rw [List.length_take]
      omega
    rw [this]
    show k < KEY_SIZE + HASH_SIZE
    simp only [KEY_SIZE, HASH_SIZE]
    omega
  · refine ⟨(DeserializeErrorKind.Leb128 .truncated).withContext .LeafIndex, ?_,
      Or.inr ⟨.truncated, rfl⟩⟩
    have htake : l.serialize.take k =
        (beBytes KEY_SIZE l.full_key ++ l.value_hash) ++
          (leb128Write l.leaf_index).take (k - 64) := by
      rw [hshape, take_append_ge _ _ _ (by omega), hlen64]
    have hguard : ¬(l.serialize.take k).length < KEY_SIZE + HASH_SIZE := by
      rw [List.length_take]
      show ¬min k l.serialize.length < 32 + 32
      omega
    unfold LeafNode.deserialize
    rw [if_neg hguard]
    have hdrop : (l.serialize.take k).drop (KEY_SIZE + HASH_SIZE) =
        (leb128Write l.leaf_index).take (k - 64) := by
      rw [htake]
      exact List.drop_left' hlen64
    rw [hdrop, leb128Read_take (by omega)]

/-- Decoding a strict prefix of the `version_count` varint of a manifest
encoding fails with a `Leb128` error. -/
theorem manifest_deserialize_take (m : Manifest) (k : Nat)
    (hk : k < (leb128Write m.version_count).length) :
    Manifest.deserialize (m.serialize.take k) =
      .error (DeserializeErrorKind.Leb128 .truncated).intoError := by
  have htake : m.serialize.take k = (leb128Write m.version_count).take k := by
    unfold Manifest.serialize
    rw [take_append_le _ _ _ (by omega)]
  unfold Manifest.deserialize
  rw [htake, leb128Read_take hk]

/-- The decoding loop on a strict prefix of the child bodies fails with
`UnexpectedEof` (a hash cut short) or a `Leb128` error (a version varint
cut short). -/
theorem internalLoop_take (n : InternalNode) : ∀ (l : List (Fin 16)) (acc : InternalNode)
    (k : Nat),
    (∀ i ∈ l, ChildRef.validOpt (n.children i)) →
    k < (n.bodyOf l).length →
    ∃ e, internalLoop l (n.bmOf l) ((n.bodyOf l).take k) acc = .error e ∧
      (e.kind = .UnexpectedEof ∨ ∃ le, e.kind = .Leb128 le) := by
  intro l
  induction l with
  | nil =>
    intro acc k _ hk
    simp [InternalNode.bodyOf] at hk
  | cons i rest ih =>
    intro acc k hval hk
    have hkv := kindValOpt_lt (n.children i)
    have hmod : n.bmOf (i :: rest) % 4 = kindValOpt (n.children i) := by
      simp only [InternalNode.bmOf]
      omega
    have hdiv : n.bmOf (i :: rest) / 4 = n.bmOf rest := by
      simp only [InternalNode.bmOf]
      omega
    have hvrest : ∀ j ∈ rest, ChildRef.validOpt (n.children j) := fun j hj =>
      hval j (List.mem_cons_of_mem _ hj)
    cases hc : n.children i with
    | none =>
      have hbody : n.bodyOf (i :: rest) = n.bodyOf rest := by
        simp only [InternalNode.bodyOf, hc, List.nil_append]
      rw [hbody] at hk
      obtain ⟨e, he, hkinds⟩ := ih acc k hvrest hk
      refine ⟨e, ?_, hkinds⟩
      rw [hbody]
      unfold internalLoop
      rw [hmod, hdiv, hc]
      simp only [kindValOpt_none, ChildKind.deserialize_zero]
      exact he
    | some r =>
      have hrv : r.valid := by
        have := hval i (List.mem_cons_self _ _)
        rw [hc] at this
        exact this
      obtain ⟨hrh, hrvver⟩ := hrv
      have hbody : n.bodyOf (i :: rest) =
          r.hash ++ (leb128Write r.version ++ n.bodyOf rest) := by
        simp only [InternalNode.bodyOf, hc, ChildRef.serialize, List.append_assoc]
      have hblen : (n.bodyOf (i :: rest)).length =
          32 + (leb128Write r.version).length + (n.bodyOf rest).length := by
        rw [hbody]
        simp [hrh, HASH_SIZE]
        omega
      -- the child-ref decoder sees the truncated cursor
      have hcursor : (n.bodyOf (i :: rest)).take k =
          (r.hash ++ leb128Write r.version ++ n.bodyOf rest).take k := by
        rw [hbody, List.append_assoc]
      by_cases hk32 : k < 32
      · -- hash cut short
        have hcref : ∀ flag, ChildRef.deserialize ((n.bodyOf (i :: rest)).take k) flag =
            .error (DeserializeErrorKind.UnexpectedEof.withContext .ChildRefHash) := by
          intro flag
          unfold ChildRef.deserialize
          rw [if_pos]
          rw [List.length_take]
          show min k (n.bodyOf (i :: rest)).length < HASH_SIZE
          simp only [HASH_SIZE]
          omega
        refine ⟨DeserializeErrorKind.UnexpectedEof.withContext .ChildRefHash, ?_,
          Or.inl rfl⟩
        unfold internalLoop
        rw [hmod, hc]
        cases hleaf : r.is_leaf with
        | false =>
          have hkind : kindValOpt (some r) = 1 := by
            simp [kindValOpt_some, ChildRef.kindVal, hleaf]
          rw [hkind]
          simp only [ChildKind.deserialize_one]
          rw [hcref false]
        | true =>
          have hkind : kindValOpt (some r) = 2 := by
            simp [kindValOpt_some, ChildRef.kindVal, hleaf]
          rw [hkind]
          simp only [ChildKind.deserialize_two]
          rw [hcref true]
      · by_cases hkv32 : k < 32 + (leb128Write r.version).length
        · -- version varint cut short
          have htake : (n.bodyOf (i :: rest)).take k =
              r.hash ++ (leb128Write r.version).take (k - 32) := by
            rw [hbody, take_append_ge _ _ _ (by rw [hrh]; simp only [HASH_SIZE]; omega)]
            rw [hrh]
            simp only [HASH_SIZE]
            congr 1
            rw [take_append_le _ _ _ (by omega)]
          have hcref : ∀ flag, ChildRef.deserialize ((n.bodyOf (i :: rest)).take k) flag =
              .error ((DeserializeErrorKind.Leb128 .truncated).withContext .Version) := by
            intro flag
            unfold ChildRef.deserialize
            rw [if_neg (by
              rw [List.length_take]
              show ¬min k (n.bodyOf (i :: rest)).length < HASH_SIZE
              simp only [HASH_SIZE]
              omega)]
            rw [show ((n.bodyOf (i :: rest)).take k).drop HASH_SIZE =
                (leb128Write r.version).take (k - 32) from by
              rw [htake]
              exact List.drop_left' hrh]
            simp only [leb128Read_take
              (show k - 32 < (leb128Write r.version).length by omega)]
          refine ⟨(DeserializeErrorKind.Leb128 .truncated).withContext .Version, ?_,
            Or.inr ⟨.truncated, rfl⟩⟩
          unfold internalLoop
          rw [hmod, hc]
          cases hleaf : r.is_leaf with
          | false =>
            have hkind : kindValOpt (some r) = 1 := by
              simp [kindValOpt_some, ChildRef.kindVal, hleaf]
            rw [hkind]
            simp only [ChildKind.deserialize_one]
            rw [hcref false]
          | true =>
            have hkind : kindValOpt (some r) = 2 := by
              simp [kindValOpt_some, ChildRef.kindVal, hleaf]
            rw [hkind]
            simp only [ChildKind.deserialize_two]
            rw [hcref true]
        · -- the whole child ref is present; recurse on the tail
          have hsplit : (n.bodyOf (i :: rest)).take k =
              r.serialize ++
                (n.bodyOf rest).take (k - (32 + (leb128Write r.version).length)) := by
            rw [hbody, ← List.append_assoc]
            rw [take_append_ge _ _ _ (by
              simp only [List.length_append, hrh, HASH_SIZE]
              omega)]
            rw [show (r.hash ++ leb128Write r.version) = r.serialize from rfl]
            congr 2
            simp only [ChildRef.serialize, List.length_append, hrh, HASH_SIZE]
          cases hleaf : r.is_leaf with
          | false =>
            have hkind : kindValOpt (some r) = 1 := by
              simp [kindValOpt_some, ChildRef.kindVal, hleaf]
            have hr : (⟨r.hash, r.version, false⟩ : ChildRef) = r := by
              cases r
              simp_all
            obtain ⟨e, he, hkinds⟩ := ih (acc.insertChildRef i r)
              (k - (32 + (leb128Write r.version).length)) hvrest (by omega)
            refine ⟨e, ?_, hkinds⟩
            unfold internalLoop
            rw [hmod, hc, hkind]
            simp only [ChildKind.deserialize_one]
            rw [hsplit, childRef_deserialize_append r ⟨hrh, hrvver⟩ false _, hr, hdiv]
            exact he
          | true =>
            have hkind : kindValOpt (some r) = 2 := by
              simp [kindValOpt_some, ChildRef.kindVal, hleaf]
            have hr : (⟨r.hash, r.version, true⟩ : ChildRef) = r := by
              cases r
              simp_all
            obtain ⟨e, he, hkinds⟩ := ih (acc.insertChildRef i r)
              (k - (32 + (leb128Write r.version).length)) hvrest (by omega)
            refine ⟨e, ?_, hkinds⟩
            unfold internalLoop
            rw [hmod, hc, hkind]
            simp only [ChildKind.deserialize_two]
            rw [hsplit, childRef_deserialize_append r ⟨hrh, hrvver⟩ true _, hr, hdiv]
            exact he

/-- Decoding any strict prefix of an internal-node encoding fails with
`UnexpectedEof` or a `Leb128` error. -/
theorem internal_deserialize_take (n : InternalNode) (hn : n.valid) (k : Nat)
    (hk : k < n.serialize.length) :
    ∃ e, InternalNode.deserialize (n.serialize.take k) = .error e ∧
      (e.kind = .UnexpectedEof ∨ ∃ le, e.kind = .Leb128 le) := by
  obtain ⟨hvalid, hcount⟩ := hn
  have hser : n.serialize = leBytes 4 n.bitmap ++ n.bodyOf (List.finRange 16) :=
    InternalNode.serialize_eq n
  by_cases hk4 : k < 4
  · refine ⟨DeserializeErrorKind.UnexpectedEof.withContext .ChildrenMask, ?_, Or.inl rfl⟩
    unfold InternalNode.deserialize
    rw [if_pos]
    rw [List.length_take]
    omega
  · have htake : n.serialize.take k =
        leBytes 4 n.bitmap ++ (n.bodyOf (List.finRange 16)).take (k - 4) := by
      rw [hser, take_append_ge _ _ _ (by simp only [leBytes_length]; omega)]
      rw [leBytes_length]
    have hguard : ¬(n.serialize.take k).length < 4 := by
      rw [List.length_take]
      omega
    have hbmtake : (n.serialize.take k).take 4 = leBytes 4 n.bitmap := by
      rw [htake]
      exact List.take_left' (leBytes_length _ _)
    have hbmlt : n.bmOf (List.finRange 16) < 4 ^ 16 := by
      have := bmOf_lt n (List.finRange 16)
      simpa using this
    have hbm : bytesToNatLE ((n.serialize.take k).take 4) = n.bmOf (List.finRange 16) := by
      rw [hbmtake, bytesToNatLE_leBytes, InternalNode.bitmap_eq]
      apply Nat.mod_eq_of_lt
      have : (256 : ℕ) ^ 4 = 4 ^ 16 := by norm_num
      omega
    have hdrop : (n.serialize.take k).drop 4 =
        (n.bodyOf (List.finRange 16)).take (k - 4) := by
      rw [htake]
      exact List.drop_left' (leBytes_length _ _)
    have hbodylen : k - 4 < (n.bodyOf (List.finRange 16)).length := by
      have hl : n.serialize.length = 4 + (n.bodyOf (List.finRange 16)).length := by
        rw [hser]
        simp
      omega
    obtain ⟨e, he, hkinds⟩ := internalLoop_take n (List.finRange 16) .withCapacity
      (k - 4) (fun i _ => hvalid i) hbodylen
    refine ⟨e, ?_, hkinds⟩
    unfold InternalNode.deserialize
    rw [if_neg hguard]
    simp only [hbm]
    rw [if_neg (bmOf_finRange_ne_zero n hcount)]
    rw [hdrop]
    simp only [he]

/-! ### InvalidChildKind behaviour -/

theorem ChildRef.deserialize_error_kind (bytes : List Byte) (flag : Bool)
    (e : DeserializeError) (h : ChildRef.deserialize bytes flag = .error e) :
    e.kind = .UnexpectedEof ∨ ∃ le, e.kind = .Leb128 le := by
  unfold ChildRef.deserialize at h
  by_cases hg : bytes.length < HASH_SIZE
  · rw [if_pos hg] at h
    cases h
    exact Or.inl rfl
  · rw [if_neg hg] at h
    cases hr : leb128Read (bytes.drop HASH_SIZE) with
    | error le =>
      simp only [hr, Except.error.injEq] at h
      subst h
      exact Or.inr ⟨le, rfl⟩
    | ok p =>
      obtain ⟨v, r⟩ := p
      simp only [hr] at h
      exact Except.noConfusion h

theorem ChildKind.deserialize_three : ChildKind.deserialize 3 =
    .error DeserializeErrorKind.InvalidChildKind.intoError := rfl

/-- If some slot still to be processed carries the invalid `0b11` kind,
the decoding loop never succeeds: it reports `InvalidChildKind`, unless
an earlier slot's child reference fails to decode first. -/
theorem internalLoop_invalid : ∀ (l : List (Fin 16)) (bm : Nat) (bytes : List Byte)
    (acc : InternalNode),
    (∃ j, j < l.length ∧ bm / 4 ^ j % 4 = 3) →
    ∃ e, internalLoop l bm bytes acc = .error e ∧
      (e.kind = .InvalidChildKind ∨ e.kind = .UnexpectedEof ∨
        ∃ le, e.kind = .Leb128 le) := by
  intro l
  induction l with
  | nil =>
    rintro bm bytes acc ⟨j, hj, _⟩
    simp at hj
  | cons i rest ih =>
    rintro bm bytes acc ⟨j, hj, hslot⟩
    have h4 : bm % 4 < 4 := Nat.mod_lt _ (by omega)
    rcases (show bm % 4 = 0 ∨ bm % 4 = 1 ∨ bm % 4 = 2 ∨ bm % 4 = 3 by omega)
      with h | h | h | h
    · -- empty slot: skip and recurse
      have hj0 : j ≠ 0 := by
        rintro rfl
        simp at hslot
        omega
      obtain ⟨e, he, hkinds⟩ := ih (bm / 4) bytes acc
        ⟨j - 1, by simp at hj ⊢; omega, by
          rw [Nat.div_div_eq_div_mul, ← pow_succ', show j - 1 + 1 = j by omega]
          exact hslot⟩
      refine ⟨e, ?_, hkinds⟩
      unfold internalLoop
      rw [h]
      simp only [ChildKind.deserialize_zero]
      exact he
    · -- internal child slot before the invalid one
      have hj0 : j ≠ 0 := by
        rintro rfl
        simp at hslot
        omega
      cases hcr : ChildRef.deserialize bytes false with
      | error e =>
        refine ⟨e, ?_, Or.inr (ChildRef.deserialize_error_kind bytes false e hcr)⟩
        unfold internalLoop
        rw [h]
        simp only [ChildKind.deserialize_one, hcr]
      | ok p =>
        obtain ⟨r, bytes2⟩ := p
        obtain ⟨e, he, hkinds⟩ := ih (bm / 4) bytes2 (acc.insertChildRef i r)
          ⟨j - 1, by simp at hj ⊢; omega, by
            rw [Nat.div_div_eq_div_mul, ← pow_succ', show j - 1 + 1 = j by omega]
            exact hslot⟩
        refine ⟨e, ?_, hkinds⟩
        unfold internalLoop
        rw [h]
        simp only [ChildKind.deserialize_one, hcr]
        exact he
    · -- leaf child slot before the invalid one
      have hj0 : j ≠ 0 := by
        rintro rfl
        simp at hslot
        omega
      cases hcr : ChildRef.deserialize bytes true with
      | error e =>
        refine ⟨e, ?_, Or.inr (ChildRef.deserialize_error_kind bytes true e hcr)⟩
        unfold internalLoop
        rw [h]
        simp only [ChildKind.deserialize_two, hcr]
      | ok p =>
        obtain ⟨r, bytes2⟩ := p
        obtain ⟨e, he, hkinds⟩ := ih (bm / 4) bytes2 (acc.insertChildRef i r)
          ⟨j - 1, by simp at hj ⊢; omega, by
            rw [Nat.div_div_eq_div_mul, ← pow_succ', show j - 1 + 1 = j by omega]
            exact hslot⟩
        refine ⟨e, ?_, hkinds⟩
        unfold internalLoop
        rw [h]
        simp only [ChildKind.deserialize_two, hcr]
        exact he
    · -- the invalid slot itself
      refine ⟨DeserializeErrorKind.InvalidChildKind.intoError, ?_, Or.inl rfl⟩
      unfold internalLoop
      rw [h]
      simp only [ChildKind.deserialize_three]

/-! ### MalformedTag behaviour -/

theorem processTag_is_recovering_ok (acc : TagAcc) (v : List Byte) (b : Bool)
    (hp : parseBool v = .ok b) :
    processTag acc (ascii "is_recovering") v =
      .ok { acc with is_recovering := b } := by
  unfold processTag
  rw [if_neg (by decide), if_neg (by decide), if_neg (by decide), if_pos rfl, hp]

theorem processTag_depth_bad (acc : TagAcc) (v : List Byte) (le : IntParseError)
    (hp : parseUsize v = .error le) :
    processTag acc (ascii "depth") v =
      .error (DeserializeErrorKind.MalformedTag "depth" (.int le)).intoError := by
  unfold processTag
  rw [if_neg (by decide), if_neg (by decide), if_pos rfl, hp]

theorem processTag_is_recovering_bad (acc : TagAcc) (v : List Byte) (u : Unit)
    (hp : parseBool v = .error u) :
    processTag acc (ascii "is_recovering") v =
      .error (DeserializeErrorKind.MalformedTag "is_recovering" .bool).intoError := by
  unfold processTag
  rw [if_neg (by decide), if_neg (by decide), if_neg (by decide), if_pos rfl, hp]

theorem isPrefixOf_eq_append {p key : List Byte} (h : p.isPrefixOf key = true) :
    ∃ t, key = p ++ t := by
  obtain ⟨t, ht⟩ := List.isPrefixOf_iff_prefix.mp h
  exact ⟨t, ht.symm⟩

/-- The tag-reading loop accepts every entry satisfying `entryOk`. -/
theorem processTag_good (acc : TagAcc) (e : List Byte × List Byte) (h : entryOk e) :
    ∃ acc2, processTag acc e.1 e.2 = .ok acc2 := by
  obtain ⟨hk, hv, hcase⟩ := h
  rcases hcase with h1 | h1 | ⟨h1, h2⟩ | ⟨h1, h2⟩ | h1
  · exact ⟨_, by rw [h1]; exact processTag_architecture acc e.2⟩
  · exact ⟨_, by rw [h1]; exact processTag_hasher acc e.2⟩
  · cases hp : parseUsize e.2 with
    | error le =>
      rw [hp] at h2
      exact absurd h2 (by simp [Except.isOk, Except.toBool])
    | ok d => exact ⟨_, by rw [h1]; exact processTag_depth acc e.2 d hp⟩
  · cases hp : parseBool e.2 with
    | error u =>
      rw [hp] at h2
      exact absurd h2 (by simp [Except.isOk, Except.toBool])
    | ok b => exact ⟨_, by rw [h1]; exact processTag_is_recovering_ok acc e.2 b hp⟩
  · obtain ⟨t, ht⟩ := isPrefixOf_eq_append h1
    exact ⟨_, by rw [ht]; exact processTag_custom acc t e.2⟩

/-- The tag-reading loop consumes a serialized run of acceptable entries
and continues with the remaining count on the remaining bytes. -/
theorem tagsLoop_skip_goods : ∀ (goods : List (List Byte × List Byte)) (n : Nat)
    (acc : TagAcc) (restBytes : List Byte),
    (∀ e ∈ goods, entryOk e) →
    ∃ acc2, tagsLoop (goods.length + n)
        ((goods.flatMap fun e => serializeStr e.1 ++ serializeStr e.2) ++ restBytes)
        acc = tagsLoop n restBytes acc2 := by
  intro goods
  induction goods with
  | nil =>
    intro n acc restBytes _
    exact ⟨acc, by simp⟩
  | cons e rest ih =>
    intro n acc restBytes hall
    obtain ⟨hk, hv, _⟩ := hall e (List.mem_cons_self _ _)
    obtain ⟨acc2, hp⟩ := processTag_good acc e (hall e (List.mem_cons_self _ _))
    have hlen : (e :: rest).length + n = (rest.length + n) + 1 := by
      simp only [List.length_cons]
      omega
    rw [hlen, List.flatMap_cons, List.append_assoc, List.append_assoc]
    rw [tagsLoop_step (rest.length + n) e.1 e.2 _ acc acc2 hk hv hp]
    exact ih n acc2 restBytes fun x hx => hall x (List.mem_cons_of_mem _ hx)

/-- One iteration of the tag-reading loop on a well-formed entry that the
tag handler rejects. -/
theorem tagsLoop_malformed (n : Nat) (key value tail : List Byte) (acc : TagAcc)
    (hk : strValid key) (hv : strValid value) (e : DeserializeError)
    (hp : processTag acc key value = .error e) :
    tagsLoop (n + 1) (serializeStr key ++ (serializeStr value ++ tail)) acc =
      .error e := by
  have h1 : tagsLoop (n + 1) (serializeStr key ++ (serializeStr value ++ tail)) acc =
      match processTag acc key value with
      | .error e => .error e
      | .ok a => tagsLoop n tail a := by
    simp only [tagsLoop, deserializeStr_append key hk, deserializeStr_append value hv]
  rw [h1, hp]

/-- C7 (amended): decoding a manifest whose tag block reaches a `depth`
entry with an unparseable value, or an `is_recovering` entry with a value
other than `true`/`false` — all earlier entries being acceptable — fails
with `MalformedTag` naming that key. (The original claim's universal form
is refuted separately: an unknown key before the malformed entry yields
`UnknownTag` instead.) -/
theorem Manifest.deserialize_malformedTag (vc k : Nat)
    (goods : List (List Byte × List Byte)) (key value tail : List Byte)
    (hvc : vc < 2 ^ 64) (hcnt : goods.length + 1 + k < 2 ^ 64)
    (hgoods : ∀ e ∈ goods, entryOk e) (hv : strValid value)
    (hbad : (key = ascii "depth" ∧ ∀ d, parseUsize value ≠ .ok d) ∨
            (key = ascii "is_recovering" ∧ ∀ b, parseBool value ≠ .ok b)) :
    ∃ err, Manifest.deserialize
        (leb128Write vc ++ (leb128Write (goods.length + 1 + k) ++
          ((goods.flatMap fun e => serializeStr e.1 ++ serializeStr e.2) ++
            (serializeStr key ++ (serializeStr value ++ tail))))) =
      .error (DeserializeErrorKind.MalformedTag
        (if key = ascii "depth" then "depth" else "is_recovering") err).intoError := by
  have hkv : strValid key := by
    rcases hbad with ⟨h1, _⟩ | ⟨h1, _⟩
    · rw [h1]; decide
    · rw [h1]; decide
  obtain ⟨err, E, hE, hname⟩ :
      ∃ (err : TagValueError) (E : DeserializeError),
        (∀ acc, processTag acc key value = .error E) ∧
        E = (DeserializeErrorKind.MalformedTag
          (if key = ascii "depth" then "depth" else "is_recovering") err).intoError := by
    rcases hbad with ⟨h1, h2⟩ | ⟨h1, h2⟩
    · cases hp : parseUsize value with
      | ok d => exact absurd hp (h2 d)
      | error le =>
        refine ⟨.int le,
          (DeserializeErrorKind.MalformedTag "depth" (.int le)).intoError,
          fun acc => by rw [h1]; exact processTag_depth_bad acc value le hp, ?_⟩
        rw [if_pos h1]
    · cases hp : parseBool value with
      | ok b => exact absurd hp (h2 b)
      | error u =>
        refine ⟨.bool,
          (DeserializeErrorKind.MalformedTag "is_recovering" .bool).intoError,
          fun acc => by rw [h1]; exact processTag_is_recovering_bad acc value u hp, ?_⟩
        rw [if_neg (show ¬key = ascii "depth" by rw [h1]; decide)]
  refine ⟨err, ?_⟩
  obtain ⟨acc2, hskip⟩ := tagsLoop_skip_goods goods (k + 1) .init
    (serializeStr key ++ (serializeStr value ++ tail)) hgoods
  have hccount : goods.length + 1 + k = goods.length + (k + 1) := by omega
  have htags : TreeTags.deserialize
      (leb128Write (goods.length + 1 + k) ++
        ((goods.flatMap fun e => serializeStr e.1 ++ serializeStr e.2) ++
          (serializeStr key ++ (serializeStr value ++ tail)))) = .error E := by
    unfold TreeTags.deserialize
    simp only [leb128Read_write (show goods.length + 1 + k < 2 ^ 64 from hcnt)]
    rw [hccount, hskip, tagsLoop_malformed k key value tail acc2 hkv hv E (hE acc2)]
  have hne : (leb128Write (goods.length + 1 + k) ++
      ((goods.flatMap fun e => serializeStr e.1 ++ serializeStr e.2) ++
        (serializeStr key ++ (serializeStr value ++ tail)))).isEmpty = false := by
    cases hc : leb128Write (goods.length + 1 + k) ++
        ((goods.flatMap fun e => serializeStr e.1 ++ serializeStr e.2) ++
          (serializeStr key ++ (serializeStr value ++ tail))) with
    | nil =>
      have h0 := List.append_eq_nil.mp hc
      exact absurd h0.1 (leb128Write_ne_nil _)
    | cons a l => rfl
  unfold Manifest.deserialize
  simp only [leb128Read_write hvc, hne, Bool.false_eq_true, if_false, htags]
  rw [hname]

/-- C7 witness: a manifest whose tag block is a single `depth` entry with
the non-numeric value `"a"` fails with `MalformedTag` naming `depth`. -/
theorem Manifest.deserialize_malformedTag_witness :
    ∃ err, Manifest.deserialize
        (leb128Write 0 ++ (leb128Write
          ((([] : List (List Byte × List Byte))).length + 1 + 0) ++
          ((([] : List (List Byte × List Byte)).flatMap
              fun e => serializeStr e.1 ++ serializeStr e.2) ++
            (serializeStr (ascii "depth") ++ (serializeStr (ascii "a") ++ []))))) =
      .error (DeserializeErrorKind.MalformedTag
        (if ascii "depth" = ascii "depth" then "depth" else "is_recovering")
        err).intoError :=
  Manifest.deserialize_malformedTag 0 0 [] (ascii "depth") (ascii "a") []
    (by decide) (by decide) (fun e he => absurd he (List.not_mem_nil e)) (by decide)
    (Or.inl ⟨rfl, fun d hd => by
      rw [show parseUsize (ascii "a") = .error .invalidDigit from rfl] at hd
      exact Except.noConfusion hd⟩)

/-- C7 counterexample to the original universal claim: this manifest's tag
block contains a `depth` entry with the unparseable value `"a"`, yet
decoding fails with `UnknownTag` (for the preceding unknown key `zzz`),
not with `MalformedTag`. -/
theorem Manifest.deserialize_malformedTag_counterexample :
    parseUsize (ascii "a") = .error .invalidDigit ∧
    Manifest.deserialize
        ((leb128Write 0 ++ leb128Write 2) ++
          (serializeStr (ascii "zzz") ++ serializeStr (ascii "x") ++
            serializeStr (ascii "depth") ++ serializeStr (ascii "a"))) =
      .error (DeserializeErrorKind.UnknownTag (ascii "zzz")).intoError := by
  exact ⟨rfl, by decide⟩

/-! ### Claim theorems -/

/-- C1 (amended): decoding inverts encoding for every valid `LeafNode`,
every valid `InternalNode` (which has at least one child), every
tree-valid `Root`, and every valid `Manifest`. (The original claim's
"every Root" is refuted separately: a `Filled{1, Internal}` root with two
or more children does not round-trip.) -/
theorem roundtrip_decode_encode (l : LeafNode) (n : InternalNode) (r : Root)
    (m : Manifest) (hl : l.valid) (hn : n.valid) (hr : r.valid) (hm : m.valid) :
    LeafNode.deserialize l.serialize = .ok l ∧
    InternalNode.deserialize n.serialize = .ok n ∧
    Root.deserialize r.serialize = .ok r ∧
    Manifest.deserialize m.serialize = .ok m := by
  refine ⟨?_, ?_, root_deserialize_serialize r hr, ?_⟩
  · have h := leaf_deserialize_append l hl []
    rwa [List.append_nil] at h
  · have h := internal_deserialize_append n hn []
    rwa [List.append_nil] at h
  · have h := manifest_deserialize_serialize m hm [] fun _ => rfl
    rwa [List.append_nil] at h

/-- C1 witness: the round-trips at a concrete leaf, a concrete
single-child internal node, the empty root, and a tagless manifest. -/
theorem roundtrip_decode_encode_witness :
    LeafNode.deserialize (LeafNode.serialize ⟨1, List.replicate 32 2, 3⟩) =
      .ok ⟨1, List.replicate 32 2, 3⟩ ∧
    InternalNode.deserialize (InternalNode.serialize
        (InternalNode.withCapacity.insertChildRef 0 ⟨List.replicate 32 1, 1, true⟩)) =
      .ok (InternalNode.withCapacity.insertChildRef 0 ⟨List.replicate 32 1, 1, true⟩) ∧
    Root.deserialize (Root.serialize .Empty) = .ok .Empty ∧
    Manifest.deserialize (Manifest.serialize ⟨7, none⟩) = .ok ⟨7, none⟩ :=
  roundtrip_decode_encode ⟨1, List.replicate 32 2, 3⟩
    (InternalNode.withCapacity.insertChildRef 0 ⟨List.replicate 32 1, 1, true⟩)
    .Empty ⟨7, none⟩ (by decide) (by decide) (by decide) (by decide)

/-- C1 counterexample: a `Filled{1, Internal}` root whose internal node
has two (valid) children does not round-trip — the decoder returns a leaf
root instead. -/
theorem roundtrip_decode_encode_counterexample :
    ((InternalNode.withCapacity.insertChildRef 2
        ⟨List.replicate 32 1, 1, false⟩).insertChildRef 3
        ⟨List.replicate 32 2, 1, false⟩).valid ∧
    Root.deserialize (Root.serialize (.Filled 1 (.Internal
        ((InternalNode.withCapacity.insertChildRef 2
          ⟨List.replicate 32 1, 1, false⟩).insertChildRef 3
          ⟨List.replicate 32 2, 1, false⟩)))) ≠
      .ok (.Filled 1 (.Internal
        ((InternalNode.withCapacity.insertChildRef 2
          ⟨List.replicate 32 1, 1, false⟩).insertChildRef 3
          ⟨List.replicate 32 2, 1, false⟩))) := by
  exact ⟨by decide, by decide⟩

/-- C2: a `Filled{1, Internal}` root over a valid single-child internal
node round-trips, as does a `Filled{1, Leaf}` root over a valid leaf; the
premise holds too: a single-child internal node's encoding is strictly
shorter than `KEY_SIZE + HASH_SIZE`, the minimum length the leaf decoder
accepts, so the leaf-first attempt fails on it and the internal fallback
restores the original. -/
theorem Root.deserialize_single_child_roundtrip (n : InternalNode) (l : LeafNode)
    (hn : n.valid) (hc : n.childCount = 1) (hl : l.valid) :
    Root.deserialize (Root.serialize (.Filled 1 (.Internal n))) =
      .ok (.Filled 1 (.Internal n)) ∧
    n.serialize.length < KEY_SIZE + HASH_SIZE ∧
    Root.deserialize (Root.serialize (.Filled 1 (.Leaf l))) =
      .ok (.Filled 1 (.Leaf l)) :=
  ⟨root_deserialize_serialize _ ⟨hn, Nat.le_refl 1, by norm_num, fun _ => hc⟩,
    InternalNode.serialize_length_single n hn hc,
    root_deserialize_serialize _ ⟨rfl, hl⟩⟩

/-- C2 witness: the single-child-internal and leaf root round-trips at
concrete values. -/
theorem Root.deserialize_single_child_roundtrip_witness :
    Root.deserialize (Root.serialize (.Filled 1 (.Internal
        (InternalNode.withCapacity.insertChildRef 5 ⟨List.replicate 32 7, 9, false⟩)))) =
      .ok (.Filled 1 (.Internal
        (InternalNode.withCapacity.insertChildRef 5 ⟨List.replicate 32 7, 9, false⟩))) ∧
    (InternalNode.withCapacity.insertChildRef 5
        ⟨List.replicate 32 7, 9, false⟩).serialize.length < KEY_SIZE + HASH_SIZE ∧
    Root.deserialize (Root.serialize (.Filled 1 (.Leaf ⟨513, List.replicate 32 4, 42⟩))) =
      .ok (.Filled 1 (.Leaf ⟨513, List.replicate 32 4, 42⟩)) :=
  Root.deserialize_single_child_roundtrip
    (InternalNode.withCapacity.insertChildRef 5 ⟨List.replicate 32 7, 9, false⟩)
    ⟨513, List.replicate 32 4, 42⟩ (by decide) (by decide) (by decide)

/-- C3 (amended): decoding any proper prefix of a valid leaf or
internal-node encoding, or a prefix of a manifest encoding cut inside the
leading version-count varint, fails with an error whose kind is
`UnexpectedEof` or `Leb128`. (The original claim's "any of the four
encoders" is refuted separately: a short prefix of a valid root encoding
can fail with `EmptyInternalNode`.) -/
theorem deserialize_truncated_prefix (l : LeafNode) (n : InternalNode) (m : Manifest)
    (kl kn km : Nat) (hl : l.valid) (hn : n.valid)
    (hkl : kl < l.serialize.length) (hkn : kn < n.serialize.length)
    (hkm : km < (leb128Write m.version_count).length) :
    (∃ e, LeafNode.deserialize (l.serialize.take kl) = .error e ∧
      (e.kind = .UnexpectedEof ∨ ∃ le, e.kind = .Leb128 le)) ∧
    (∃ e, InternalNode.deserialize (n.serialize.take kn) = .error e ∧
      (e.kind = .UnexpectedEof ∨ ∃ le, e.kind = .Leb128 le)) ∧
    Manifest.deserialize (m.serialize.take km) =
      .error (DeserializeErrorKind.Leb128 .truncated).intoError :=
  ⟨leaf_deserialize_take l hl kl hkl,
    internal_deserialize_take n hn kn hkn,
    manifest_deserialize_take m km hkm⟩

/-- C3 witness: truncation of concrete leaf, internal-node and manifest
encodings. -/
theorem deserialize_truncated_prefix_witness :
    (∃ e, LeafNode.deserialize ((LeafNode.serialize
        ⟨513, List.replicate 32 4, 42⟩).take 10) = .error e ∧
      (e.kind = .UnexpectedEof ∨ ∃ le, e.kind = .Leb128 le)) ∧
    (∃ e, InternalNode.deserialize ((InternalNode.serialize
        (InternalNode.withCapacity.insertChildRef 5
          ⟨List.replicate 32 7, 9, false⟩)).take 4) = .error e ∧
      (e.kind = .UnexpectedEof ∨ ∃ le, e.kind = .Leb128 le)) ∧
    Manifest.deserialize ((Manifest.serialize ⟨300, none⟩).take 1) =
      .error (DeserializeErrorKind.Leb128 .truncated).intoError :=
  deserialize_truncated_prefix ⟨513, List.replicate 32 4, 42⟩
    (InternalNode.withCapacity.insertChildRef 5 ⟨List.replicate 32 7, 9, false⟩)
    ⟨300, none⟩ 10 4 1 (by decide) (by decide) (by decide) (by decide) (by decide)

/-- C3 counterexample: the 5-byte prefix of a valid leaf-root encoding
decodes to the `EmptyInternalNode` error kind, not `UnexpectedEof` or
`Leb128`. -/
theorem deserialize_truncated_prefix_counterexample :
    Root.valid (.Filled 1 (.Leaf ⟨513, List.replicate 32 4, 42⟩)) ∧
    5 < (Root.serialize (.Filled 1 (.Leaf ⟨513, List.replicate 32 4, 42⟩))).length ∧
    Root.deserialize ((Root.serialize
        (.Filled 1 (.Leaf ⟨513, List.replicate 32 4, 42⟩))).take 5) =
      .error DeserializeErrorKind.EmptyInternalNode.intoError := by
  exact ⟨by decide, by decide, by decide⟩

/-- C4 (amended): on the encoder's image, re-encoding the decoded value
reproduces the bytes: for every valid manifest, decoding its encoding
succeeds and the decoded value re-encodes to the identical byte sequence.
(The original claim over arbitrary successfully-decoded byte strings is
refuted separately: a tag block with reordered entries decodes but
re-encodes differently.) -/
theorem Manifest.reencode_identity (m : Manifest) (h : m.valid) :
    ∃ m2, Manifest.deserialize m.serialize = .ok m2 ∧
      m2.serialize = m.serialize := by
  refine ⟨m, ?_, rfl⟩
  have h2 := manifest_deserialize_serialize m h [] fun _ => rfl
  rwa [List.append_nil] at h2

/-- C4 witness: re-encoding identity at a concrete manifest. -/
theorem Manifest.reencode_identity_witness :
    ∃ m2, Manifest.deserialize (Manifest.serialize ⟨5, none⟩) = .ok m2 ∧
      Manifest.serialize m2 = Manifest.serialize ⟨5, none⟩ :=
  Manifest.reencode_identity ⟨5, none⟩ (by decide)

/-- C4 counterexample: a manifest byte string with the tag entries in the
order hasher, architecture, depth decodes successfully, but the decoded
value re-encodes with the canonical order architecture, depth, hasher —
different bytes. -/
theorem Manifest.reencode_identity_counterexample :
    Manifest.deserialize ([42, 3] ++ serializeStr (ascii "hasher") ++
        serializeStr (ascii "no_op256") ++ serializeStr (ascii "architecture") ++
        serializeStr (ascii "AR16MT") ++ serializeStr (ascii "depth") ++
        serializeStr (ascii "256")) =
      .ok ⟨42, some ⟨ascii "AR16MT", ascii "no_op256", 256, false, []⟩⟩ ∧
    Manifest.serialize ⟨42, some ⟨ascii "AR16MT", ascii "no_op256", 256, false, []⟩⟩ ≠
      ([42, 3] ++ serializeStr (ascii "hasher") ++
        serializeStr (ascii "no_op256") ++ serializeStr (ascii "architecture") ++
        serializeStr (ascii "AR16MT") ++ serializeStr (ascii "depth") ++
        serializeStr (ascii "256")) := by
  exact ⟨by decide, by decide⟩

/-- The decoding loop on an all-zero bitmap touches no bytes and
succeeds. -/
theorem internalLoop_zero : ∀ (l : List (Fin 16)) (bytes : List Byte)
    (acc : InternalNode), internalLoop l 0 bytes acc = .ok (acc, bytes) := by
  intro l
  induction l with
  | nil => intro bytes acc; rfl
  | cons i rest ih =>
    intro bytes acc
    unfold internalLoop
    simp only [Nat.zero_mod, Nat.zero_div, ChildKind.deserialize_zero]
    exact ih bytes acc

/-- One-step unfolding of the decoding loop at a cons cell. -/
theorem internalLoop_cons (i : Fin 16) (slots : List (Fin 16)) (bm : Nat)
    (bytes : List Byte) (acc : InternalNode) :
    internalLoop (i :: slots) bm bytes acc =
      match ChildKind.deserialize (bm % 4) with
      | .error e => .error e
      | .ok .None => internalLoop slots (bm / 4) bytes acc
      | .ok .Internal =>
        match ChildRef.deserialize bytes false with
        | .error e => .error e
        | .ok (r, bytes2) => internalLoop slots (bm / 4) bytes2 (acc.insertChildRef i r)
      | .ok .Leaf =>
        match ChildRef.deserialize bytes true with
        | .error e => .error e
        | .ok (r, bytes2) => internalLoop slots (bm / 4) bytes2 (acc.insertChildRef i r) :=
  rfl

/-- Exact behaviour of the decoding loop at the first invalid slot `j`:
masking the bitmap below `j` replays exactly the child-reference reads of
the earlier occupied slots. If that masked run succeeds, the full run
stops at slot `j` with precisely `InvalidChildKind`; if it fails (a child
reference of an earlier slot is truncated), its error — of kind
`UnexpectedEof` or `Leb128` — is precisely the full run's error. -/
theorem internalLoop_invalid_split : ∀ (l : List (Fin 16)) (bm : Nat)
    (bytes : List Byte) (acc : InternalNode) (j : Nat),
    j < l.length → bm / 4 ^ j % 4 = 3 → (∀ i, i < j → bm / 4 ^ i % 4 ≠ 3) →
    ((∃ p, internalLoop l (bm % 4 ^ j) bytes acc = .ok p) →
      internalLoop l bm bytes acc =
        .error DeserializeErrorKind.InvalidChildKind.intoError) ∧
    (∀ e, internalLoop l (bm % 4 ^ j) bytes acc = .error e →
      internalLoop l bm bytes acc = .error e ∧
        (e.kind = .UnexpectedEof ∨ ∃ le, e.kind = .Leb128 le)) := by
  intro l
  induction l with
  | nil =>
    intro bm bytes acc j hj _ _
    simp at hj
  | cons i rest ih =>
    intro bm bytes acc j hj h3 hleast
    cases j with
    | zero =>
      have hmod : bm % 4 = 3 := by simpa using h3
      have hmask : bm % 4 ^ 0 = 0 := by simp [Nat.mod_one]
      constructor
      · intro _
        rw [internalLoop_cons, hmod]
        simp only [ChildKind.deserialize_three]
      · intro e he
        rw [hmask, internalLoop_zero] at he
        exact Except.noConfusion he
    | succ k =>
      have h0 : bm % 4 ≠ 3 := by
        have := hleast 0 (Nat.succ_pos k)
        simpa using this
      have hdvd : (4 : ℕ) ∣ 4 ^ (k + 1) := ⟨4 ^ k, pow_succ' 4 k⟩
      have hmodmask : bm % 4 ^ (k + 1) % 4 = bm % 4 := Nat.mod_mod_of_dvd bm hdvd
      have hdivmask : bm % 4 ^ (k + 1) / 4 = bm / 4 % 4 ^ k := by
        rw [pow_succ' 4 k]
        exact Nat.mod_mul_right_div_self bm 4 (4 ^ k)
      have h3' : bm / 4 / 4 ^ k % 4 = 3 := by
        rw [Nat.div_div_eq_div_mul, ← pow_succ']
        exact h3
      have hleast' : ∀ i, i < k → bm / 4 / 4 ^ i % 4 ≠ 3 := by
        intro i hi
        rw [Nat.div_div_eq_div_mul, ← pow_succ']
        exact hleast (i + 1) (by omega)
      have hk : k < rest.length := by
        simp only [List.length_cons] at hj
        omega
      have hkv : bm % 4 < 4 := Nat.mod_lt _ (by omega)
      rcases (show bm % 4 = 0 ∨ bm % 4 = 1 ∨ bm % 4 = 2 by omega) with h | h | h
      · -- empty slot: both runs skip it
        have hmaskstep : internalLoop (i :: rest) (bm % 4 ^ (k + 1)) bytes acc =
            internalLoop rest (bm / 4 % 4 ^ k) bytes acc := by
          rw [internalLoop_cons, hmodmask, h]
          simp only [ChildKind.deserialize_zero]
          rw [hdivmask]
        obtain ⟨ihA, ihB⟩ := ih (bm / 4) bytes acc k hk h3' hleast'
        constructor
        · rintro ⟨p, hp⟩
          rw [hmaskstep] at hp
          rw [internalLoop_cons, h]
          simp only [ChildKind.deserialize_zero]
          exact ihA ⟨p, hp⟩
        · intro e he
          rw [hmaskstep] at he
          obtain ⟨hfull, hkinds⟩ := ihB e he
          refine ⟨?_, hkinds⟩
          rw [internalLoop_cons, h]
          simp only [ChildKind.deserialize_zero]
          exact hfull
      · -- occupied slot (internal child): both runs read the same child ref
        cases hcr : ChildRef.deserialize bytes false with
        | error e0 =>
          have hmaskstep : internalLoop (i :: rest) (bm % 4 ^ (k + 1)) bytes acc =
              .error e0 := by
            rw [internalLoop_cons, hmodmask, h]
            simp only [ChildKind.deserialize_one, hcr]
          constructor
          · rintro ⟨p, hp⟩
            rw [hmaskstep] at hp
            exact Except.noConfusion hp
          · intro e he
            rw [hmaskstep] at he
            injection he with h1
            subst h1
            refine ⟨?_, ChildRef.deserialize_error_kind bytes false _ hcr⟩
            rw [internalLoop_cons, h]
            simp only [ChildKind.deserialize_one, hcr]
        | ok p0 =>
          obtain ⟨r, bytes2⟩ := p0
          have hmaskstep : internalLoop (i :: rest) (bm % 4 ^ (k + 1)) bytes acc =
              internalLoop rest (bm / 4 % 4 ^ k) bytes2 (acc.insertChildRef i r) := by
            rw [internalLoop_cons, hmodmask, h]
            simp only [ChildKind.deserialize_one, hcr]
            rw [hdivmask]
          have hfullstep : internalLoop (i :: rest) bm bytes acc =
              internalLoop rest (bm / 4) bytes2 (acc.insertChildRef i r) := by
            rw [internalLoop_cons, h]
            simp only [ChildKind.deserialize_one, hcr]
          obtain ⟨ihA, ihB⟩ := ih (bm / 4) bytes2 (acc.insertChildRef i r) k hk h3' hleast'
          constructor
          · rintro ⟨p, hp⟩
            rw [hmaskstep] at hp
            rw [hfullstep]
            exact ihA ⟨p, hp⟩
          · intro e he
            rw [hmaskstep] at he
            rw [hfullstep]
            exact ihB e he
      · -- occupied slot (leaf child): both runs read the same child ref
        cases hcr : ChildRef.deserialize bytes true with
        | error e0 =>
          have hmaskstep : internalLoop (i :: rest) (bm % 4 ^ (k + 1)) bytes acc =
              .error e0 := by
            rw [internalLoop_cons, hmodmask, h]
            simp only [ChildKind.deserialize_two, hcr]
          constructor
          · rintro ⟨p, hp⟩
            rw [hmaskstep] at hp
            exact Except.noConfusion hp
          · intro e he
            rw [hmaskstep] at he
            injection he with h1
            subst h1
            refine ⟨?_, ChildRef.deserialize_error_kind bytes true _ hcr⟩
            rw [internalLoop_cons, h]
            simp only [ChildKind.deserialize_two, hcr]
        | ok p0 =>
          obtain ⟨r, bytes2⟩ := p0
          have hmaskstep : internalLoop (i :: rest) (bm % 4 ^ (k + 1)) bytes acc =
              internalLoop rest (bm / 4 % 4 ^ k) bytes2 (acc.insertChildRef i r) := by
            rw [internalLoop_cons, hmodmask, h]
            simp only [ChildKind.deserialize_two, hcr]
            rw [hdivmask]
          have hfullstep : internalLoop (i :: rest) bm bytes acc =
              internalLoop rest (bm / 4) bytes2 (acc.insertChildRef i r) := by
            rw [internalLoop_cons, h]
            simp only [ChildKind.deserialize_two, hcr]
          obtain ⟨ihA, ihB⟩ := ih (bm / 4) bytes2 (acc.insertChildRef i r) k hk h3' hleast'
          constructor
          · rintro ⟨p, hp⟩
            rw [hmaskstep] at hp
            rw [hfullstep]
            exact ihA ⟨p, hp⟩
          · intro e he
            rw [hmaskstep] at he
            rw [hfullstep]
            exact ihB e he

/-- C5 (amended): if the 4-byte little-endian bitmap of an internal-node
input marks slot `j` with the invalid kind bits `11` and no earlier slot
is so marked, decoding always fails, and exactly as the source's in-order
loop dictates: when the child-reference reads of the earlier occupied
slots all succeed (the decoding loop run on the bitmap masked below `j`
returns `ok`), the error is precisely `InvalidChildKind`; when one of
them fails first (the masked run returns that error), the full decoder
returns precisely that error, whose kind is `UnexpectedEof` or `Leb128`.
(The original claim that the error is always `InvalidChildKind` is
refuted separately.) -/
theorem InternalNode.deserialize_invalid_kind (bytes : List Byte)
    (h4 : ¬bytes.length < 4) (j : Nat) (hj : j < 16)
    (h3 : bytesToNatLE (bytes.take 4) / 4 ^ j % 4 = 3)
    (hleast : ∀ i, i < j → bytesToNatLE (bytes.take 4) / 4 ^ i % 4 ≠ 3) :
    (∃ e, InternalNode.deserialize bytes = .error e ∧
      (e.kind = .InvalidChildKind ∨ e.kind = .UnexpectedEof ∨
        ∃ le, e.kind = .Leb128 le)) ∧
    ((∃ p, internalLoop (List.finRange 16) (bytesToNatLE (bytes.take 4) % 4 ^ j)
        (bytes.drop 4) .withCapacity = .ok p) →
      InternalNode.deserialize bytes =
        .error DeserializeErrorKind.InvalidChildKind.intoError) ∧
    (∀ e, internalLoop (List.finRange 16) (bytesToNatLE (bytes.take 4) % 4 ^ j)
        (bytes.drop 4) .withCapacity = .error e →
      InternalNode.deserialize bytes = .error e ∧
        (e.kind = .UnexpectedEof ∨ ∃ le, e.kind = .Leb128 le)) := by
  have hbm0 : ¬bytesToNatLE (bytes.take 4) = 0 := by
    intro h0
    rw [h0, Nat.zero_div, Nat.zero_mod] at h3
    exact absurd h3 (by omega)
  obtain ⟨hA, hB⟩ := internalLoop_invalid_split (List.finRange 16)
    (bytesToNatLE (bytes.take 4)) (bytes.drop 4) .withCapacity j
    (by simpa using hj) h3 hleast
  have hstep : ∀ e, internalLoop (List.finRange 16) (bytesToNatLE (bytes.take 4))
      (bytes.drop 4) .withCapacity = .error e →
      InternalNode.deserialize bytes = .error e := by
    intro e he
    unfold InternalNode.deserialize
    rw [if_neg h4]
    simp only [if_neg hbm0, he]
  refine ⟨?_, ?_, ?_⟩
  · cases hm : internalLoop (List.finRange 16) (bytesToNatLE (bytes.take 4) % 4 ^ j)
        (bytes.drop 4) .withCapacity with
    | ok p => exact ⟨_, hstep _ (hA ⟨p, hm⟩), Or.inl rfl⟩
    | error e =>
      obtain ⟨hfull, hkinds⟩ := hB e hm
      exact ⟨e, hstep e hfull, Or.inr hkinds⟩
  · intro hok
    exact hstep _ (hA hok)
  · intro e he
    obtain ⟨hfull, hkinds⟩ := hB e he
    exact ⟨hstep e hfull, hkinds⟩

/-- C5 witness: the input `[3,0,0,0]` (slot 0 carries the kind bits `11`,
no earlier slot exists) decodes to exactly the `InvalidChildKind`
error. -/
theorem InternalNode.deserialize_invalid_kind_witness :
    InternalNode.deserialize [3, 0, 0, 0] =
      .error DeserializeErrorKind.InvalidChildKind.intoError :=
  (InternalNode.deserialize_invalid_kind [3, 0, 0, 0] (by decide) 0 (by decide)
    (by decide) (fun i hi => absurd hi (Nat.not_lt_zero i))).2.1
    ⟨(InternalNode.withCapacity, []), by decide⟩

/-- C5 counterexample: bitmap `13 = 0b1101` marks slot 1 with the invalid
kind `11`, yet decoding fails with `UnexpectedEof` (slot 0's child
reference is read — and truncated — first), not `InvalidChildKind`. -/
theorem InternalNode.deserialize_invalid_kind_counterexample :
    bytesToNatLE (([13, 0, 0, 0] : List Byte).take 4) / 4 ^ 1 % 4 = 3 ∧
    InternalNode.deserialize [13, 0, 0, 0] =
      .error (DeserializeErrorKind.UnexpectedEof.withContext .ChildRefHash) := by
  exact ⟨by decide, by decide⟩

/-- C6: the fixture manifest `{version_count := 42, tags := some
{architecture := "AR16MT", hasher := "no_op256", depth := 256,
is_recovering := true, custom := {}}}` encodes to exactly `0x2A`, `0x04`,
then the length-prefixed pairs for architecture, depth, hasher and
is_recovering, in that order. -/
theorem Manifest.serialize_fixture :
    Manifest.serialize ⟨42, some ⟨ascii "AR16MT", ascii "no_op256", 256, true, []⟩⟩ =
      42 :: 4 :: (12 :: ascii "architecture" ++ 6 :: ascii "AR16MT" ++
        5 :: ascii "depth" ++ 3 :: ascii "256" ++ 6 :: ascii "hasher" ++
        8 :: ascii "no_op256" ++ 13 :: ascii "is_recovering" ++ 4 :: ascii "true") := by
  decide

/-- C8: the internal node with children in slots 1 and 11 (two children)
encodes, as a `Filled{1, Internal}` root, to bytes that the root decoder
accepts — but as a `Filled{1, Leaf}` root whose leaf is fabricated from
the internal node's body, not as the original internal root. -/
theorem Root.deserialize_misparse_internal :
    ((InternalNode.withCapacity.insertChildRef 1
        ⟨List.replicate 32 1, 3, false⟩).insertChildRef 11
        ⟨List.replicate 32 11, 2, true⟩).childCount = 2 ∧
    Root.deserialize (Root.serialize (.Filled 1 (.Internal
        ((InternalNode.withCapacity.insertChildRef 1
          ⟨List.replicate 32 1, 3, false⟩).insertChildRef 11
          ⟨List.replicate 32 11, 2, true⟩)))) =
      .ok (.Filled 1 (.Leaf ⟨bytesToNatBE ([4, 0, 128, 0] ++ List.replicate 28 1),
        List.replicate 4 1 ++ [3] ++ List.replicate 27 11, 11⟩)) ∧
    Root.deserialize (Root.serialize (.Filled 1 (.Internal
        ((InternalNode.withCapacity.insertChildRef 1
          ⟨List.replicate 32 1, 3, false⟩).insertChildRef 11
          ⟨List.replicate 32 11, 2, true⟩)))) ≠
      .ok (.Filled 1 (.Internal
        ((InternalNode.withCapacity.insertChildRef 1
          ⟨List.replicate 32 1, 3, false⟩).insertChildRef 11
          ⟨List.replicate 32 11, 2, true⟩))) := by
  exact ⟨by decide, by decide, by decide⟩

/-- C9: a manifest with a tag block present decodes from its encoding
followed by any (non-empty) trailing junk, returning the original
manifest — trailing bytes after the counted tag entries are silently
ignored. -/
theorem Manifest.deserialize_ignores_trailing (m : Manifest) (t : TreeTags)
    (ht : m.tags = some t) (hv : m.valid) (S : List Byte) (hS : S ≠ []) :
    Manifest.deserialize (m.serialize ++ S) = .ok m :=
  manifest_deserialize_serialize m hv S fun h => by
    rw [h] at ht
    exact Option.noConfusion ht

/-- C9 witness: trailing-byte tolerance at a concrete tagged manifest. -/
theorem Manifest.deserialize_ignores_trailing_witness :
    Manifest.deserialize (Manifest.serialize
        ⟨1, some ⟨ascii "A", ascii "H", 2, false, []⟩⟩ ++ [0]) =
      .ok ⟨1, some ⟨ascii "A", ascii "H", 2, false, []⟩⟩ :=
  Manifest.deserialize_ignores_trailing
    ⟨1, some ⟨ascii "A", ascii "H", 2, false, []⟩⟩
    ⟨ascii "A", ascii "H", 2, false, []⟩ rfl (by decide) [0] (by decide)

/-- C10: a leaf input of length exactly `KEY_SIZE + HASH_SIZE` (key and
value hash present, nothing left for the leaf index) fails with a
`Leb128 truncated` error carrying the `LeafIndex` context, while any
shorter input fails with the bare `UnexpectedEof`. -/
theorem LeafNode.deserialize_boundary_length (bytes bytes2 : List Byte)
    (h : bytes.length = KEY_SIZE + HASH_SIZE)
    (h2 : bytes2.length < KEY_SIZE + HASH_SIZE) :
    LeafNode.deserialize bytes =
      .error ((DeserializeErrorKind.Leb128 .truncated).withContext .LeafIndex) ∧
    LeafNode.deserialize bytes2 =
      .error DeserializeErrorKind.UnexpectedEof.intoError := by
  constructor
  · unfold LeafNode.deserialize
    rw [if_neg (by omega)]
    rw [show bytes.drop (KEY_SIZE + HASH_SIZE) = [] from by rw [← h, List.drop_length]]
    rfl
  · unfold LeafNode.deserialize
    rw [if_pos h2]

/-- C10 witness: the 64-byte all-zero input and the empty input. -/
theorem LeafNode.deserialize_boundary_length_witness :
    LeafNode.deserialize (List.replicate 64 0) =
      .error ((DeserializeErrorKind.Leb128 .truncated).withContext .LeafIndex) ∧
    LeafNode.deserialize [] =
      .error DeserializeErrorKind.UnexpectedEof.intoError :=
  LeafNode.deserialize_boundary_length (List.replicate 64 0) [] (by decide) (by decide)

end MerkleSer
